import Mathlib

/-!
Verification of the maze generator in `maze.py`.

The Python source is shallowly embedded: Python strings become `List Char`,
Python lists become Lean lists, and Python list indexing (including negative
index wrap-around) is modeled by `pyIdx`, `pyGet`, `pySet`.  Indices outside
the valid Python range `[-len, len)` raise `IndexError` in Python and never
occur on reachable states; they are modeled by a default value.  The global
random generator (`random.randint`, `random.shuffle`) is modeled by an
explicit stream of natural numbers threaded through every function.
-/

namespace PyMaze

/-- A cell position, the Python `[x, y]` pair. -/
abbrev Cell := ℤ × ℤ

/-! ### Python list indexing -/

/-- Resolve a Python index against a list length: indices in `[0, n)` are used
directly, indices in `[-n, 0)` wrap around, anything else is invalid. -/
def pyIdx (n : ℕ) (i : ℤ) : Option ℕ :=
  if 0 ≤ i ∧ i < n then some i.toNat
  else if 0 ≤ i + n ∧ i < 0 then some (i + n).toNat
  else none

/-- Python `l[i]` with a default for invalid indices (Python raises there). -/
def pyGet (l : List α) (i : ℤ) (d : α) : α :=
  match pyIdx l.length i with
  | some j => l.getD j d
  | none => d

/-- Python `l[i] = a` (no-op on invalid indices, where Python raises). -/
def pySet (l : List α) (i : ℤ) (a : α) : List α :=
  match pyIdx l.length i with
  | some j => l.set j a
  | none => l

/-- Python `m[i][j]` for a matrix. -/
def pyGet2 (m : List (List α)) (i j : ℤ) (d : α) : α :=
  pyGet (pyGet m i []) j d

/-- Python `m[i][j] = a` for a matrix. -/
def pySet2 (m : List (List α)) (i j : ℤ) (a : α) : List (List α) :=
  pySet m i (pySet (pyGet m i []) j a)

theorem pyIdx_canon {n : ℕ} {i : ℤ} (h0 : 0 ≤ i) (h1 : i < n) :
    pyIdx n i = some i.toNat := by
  simp [pyIdx, h0, h1]

theorem pyGet_canon {l : List α} {i : ℤ} (h0 : 0 ≤ i) (h1 : i < l.length) (d : α) :
    pyGet l i d = l.getD i.toNat d := by
  simp [pyGet, pyIdx_canon h0 h1]

theorem pySet_canon {l : List α} {i : ℤ} (h0 : 0 ≤ i) (h1 : i < l.length) (a : α) :
    pySet l i a = l.set i.toNat a := by
  simp [pySet, pyIdx_canon h0 h1]

theorem pySet_length (l : List α) (i : ℤ) (a : α) :
    (pySet l i a).length = l.length := by
  unfold pySet
  cases pyIdx l.length i <;> simp

theorem pySet2_length (m : List (List α)) (i j : ℤ) (a : α) :
    (pySet2 m i j a).length = m.length := by
  unfold pySet2; exact pySet_length _ _ _

/-! ### Grid parts (the module-level constants of `maze.py`).
`term.green`/`term.normal` are the `blessings` colorization escapes; they are
empty strings when output is not a terminal, and the spec treats colorization
as stripped, so `START`/`END` are the bare marker characters. -/

def CORNER : List Char := ['+']
def WALL : List Char := ['|']
def CEILING : List Char := ['-']
def EMPTY : List Char := [' ']
def START : List Char := ['S']
def END : List Char := ['E']

/-- `get_grid_part(part, path)` from the source.  Python raises `ValueError`
on a part outside `[CORNER, WALL]`; every call site passes one of the two
constants, so that branch is modeled by `[]` (never reached). -/
def get_grid_part (part : List Char) (path : Bool) : List Char :=
  if ¬ (part = CORNER ∨ part = WALL) then []
  else
    let rest := if ¬ path then CEILING else EMPTY
    if part = WALL then
      let part' := if ¬ path then WALL else EMPTY
      part' ++ EMPTY ++ EMPTY
    else
      part ++ rest ++ rest

/-- `generate_boundaries(w, h)`: the visited matrix, all cells unvisited, with
an extra all-visited column on the right and row at the bottom. -/
def generate_boundaries (w h : ℕ) : List (List ℕ) :=
  List.replicate h (List.replicate w 0 ++ [1]) ++ [List.replicate (w + 1) 1]

/-- `generate_grid(w, h)`: fully blocked vertical and horizontal matrices,
with an extra column for the right edge and an extra (empty) row at the
bottom of the vertical matrix. -/
def generate_grid (w h : ℕ) :
    List (List (List Char)) × List (List (List Char)) :=
  (List.replicate h (List.replicate w (get_grid_part WALL false) ++ [WALL]) ++ [[]],
   List.replicate (h + 1) (List.replicate w (get_grid_part CORNER false) ++ [CORNER]))

/-! ### Rendering -/

/-- `get_maze_string(vertical, horizontal)`: joins each horizontal row and
vertical row with newlines and drops the final character (`maze[:-1]`). -/
def get_maze_string (vertical horizontal : List (List (List Char))) : List Char :=
  let maze := (List.zip horizontal vertical).foldl
    (fun acc p => acc ++ (p.1 ++ [['\n']] ++ p.2 ++ [['\n']]).flatten) []
  maze.dropLast

/-- Alternating merge of two lists, used to state the separator-line and
cell-line structure of the rendered maze. -/
def interleave : List α → List α → List α
  | [], ys => ys
  | x :: xs, [] => x :: xs
  | x :: xs, y :: ys => x :: y :: interleave xs ys

theorem interleave_length (xs ys : List α) :
    (interleave xs ys).length = xs.length + ys.length := by
  induction xs generalizing ys with
  | nil => simp [interleave]
  | cons x xs ih =>
    cases ys with
    | nil => simp [interleave]
    | cons y ys => simp [interleave, ih]; omega

theorem mem_interleave {xs ys : List α} {a : α} (h : a ∈ interleave xs ys) :
    a ∈ xs ∨ a ∈ ys := by
  induction xs generalizing ys with
  | nil => simp [interleave] at h; exact Or.inr h
  | cons x xs ih =>
    cases ys with
    | nil => exact Or.inl h
    | cons y ys =>
      simp only [interleave, List.mem_cons] at h
      rcases h with h | h | h
      · exact Or.inl (by simp [h])
      · exact Or.inr (by simp [h])
      · rcases ih h with h' | h'
        · exact Or.inl (List.mem_cons_of_mem _ h')
        · exact Or.inr (List.mem_cons_of_mem _ h')

theorem foldl_append_eq_flatten (f : α → List β) (l : List α) (acc : List β) :
    l.foldl (fun a c => a ++ f c) acc = acc ++ (l.map f).flatten := by
  induction l generalizing acc with
  | nil => simp
  | cons x xs ih => simp [ih, List.append_assoc]

theorem intercalate_cons_of_ne_nil (s : List α) (l : List (List α))
    (x : List α) (h : l ≠ []) :
    List.intercalate s (x :: l) = x ++ s ++ List.intercalate s l := by
  cases l with
  | nil => exact absurd rfl h
  | cons b l => simp [List.intercalate, List.append_assoc]

/-- The rendered maze is the interleaving of the joined horizontal and
vertical rows separated by newlines, with one trailing newline coming from
the empty final row of the vertical matrix. -/
theorem get_maze_string_structure (VS HS : List (List (List Char)))
    (hlen : HS.length = VS.length + 1) :
    get_maze_string (VS ++ [[]]) HS =
      List.intercalate ['\n']
        (interleave (HS.map List.flatten) (VS.map List.flatten)) ++ ['\n'] := by
  have key : ∀ (VS HS : List (List (List Char))), HS.length = VS.length + 1 →
      ((List.zip HS (VS ++ [[]])).map
        (fun p => (p.1 ++ [['\n']] ++ p.2 ++ [['\n']]).flatten)).flatten =
      List.intercalate ['\n']
        (interleave (HS.map List.flatten) (VS.map List.flatten)) ++ ['\n', '\n'] := by
    intro VS
    induction VS with
    | nil =>
      intro HS h
      match HS, h with
      | [A], _ => simp [interleave, List.intercalate]
    | cons B VS ih =>
      intro HS h
      match HS, h with
      | A :: HS, h =>
        have hlen' : HS.length = VS.length + 1 := by simpa using h
        have hne : interleave (HS.map List.flatten) (VS.map List.flatten) ≠ [] := by
          have : (interleave (HS.map List.flatten) (VS.map List.flatten)).length =
              HS.length + VS.length := by simp [interleave_length]
          intro hc
          rw [hc] at this
          simp at this
          omega
        simp only [List.cons_append, List.zip_cons_cons, List.map_cons, List.flatten_cons,
          ih HS hlen', List.map_cons, interleave]
        rw [intercalate_cons_of_ne_nil _ _ _ (by simp [interleave]),
          intercalate_cons_of_ne_nil _ _ _ hne]
        simp [List.append_assoc]
  unfold get_maze_string
  rw [foldl_append_eq_flatten, key VS HS hlen]
  simp only [List.nil_append]
  rw [show (['\n', '\n'] : List Char) = ['\n'] ++ ['\n'] from rfl, ← List.append_assoc]
  rw [List.dropLast_concat]

theorem count_intercalate_newline (L : List (List Char))
    (h : ∀ l ∈ L, '\n' ∉ l) :
    (List.intercalate ['\n'] L).count '\n' = L.length - 1 := by
  induction L with
  | nil => simp [List.intercalate]
  | cons a L ih =>
    cases L with
    | nil =>
      simp [List.intercalate, List.count_eq_zero_of_not_mem (h a (by simp))]
    | cons b L =>
      rw [intercalate_cons_of_ne_nil _ _ _ (by simp)]
      have ha : '\n' ∉ a := h a (by simp)
      have ih' := ih (fun l hl => h l (List.mem_cons_of_mem _ hl))
      simp only [List.count_append, List.count_eq_zero_of_not_mem ha, ih']
      simp [List.count_cons]
      omega

/-! ### The random source.
Python's global `random` generator is modeled by a stream of naturals; an
exhausted stream keeps yielding `0`, itself a possible random outcome, so
universally quantified theorems cover every real behaviour. -/

def nextRand : List ℕ → ℕ × List ℕ
  | [] => (0, [])
  | v :: r => (v, r)

/-- `random.randint(lo, hi)`: a uniform draw from `[lo, hi]`, modeled by
reducing the next stream value into that range. -/
def randint (lo hi : ℤ) (r : List ℕ) : ℤ × List ℕ :=
  let p := nextRand r
  (lo + (p.1 : ℤ) % (hi - lo + 1), p.2)

/-- Fuel-indexed helper for `shuffle`: the fuel is the length of the list,
which drops by exactly one with each extraction, so the out-of-fuel non-nil
branch is never reached. -/
def shuffle_go : ℕ → List α → List ℕ → List α × List ℕ
  | _, [], r => ([], r)
  | 0, a :: as, r => (a :: as, r)
  | n + 1, a :: as, r =>
    let p := nextRand r
    let i : ℕ := p.1 % (a :: as).length
    let q := shuffle_go n ((a :: as).eraseIdx i) p.2
    ((a :: as).getD i a :: q.1, q.2)

/-- `random.shuffle(l)`: a uniform permutation driven by the random stream,
built by repeatedly extracting a randomly chosen element. -/
def shuffle (l : List α) (r : List ℕ) : List α × List ℕ :=
  shuffle_go l.length l r

theorem getD_cons_eraseIdx_perm :
    ∀ (l : List α) (i : ℕ), i < l.length → ∀ d, (l.getD i d :: l.eraseIdx i).Perm l := by
  intro l
  induction l with
  | nil => simp
  | cons a as ih =>
    intro i hi d
    cases i with
    | zero => simp
    | succ n =>
      have hn : n < as.length := by simpa using hi
      simp only [List.getD_cons_succ, List.eraseIdx_cons_succ]
      exact List.Perm.trans (List.Perm.swap a (as.getD n d) _)
        (List.Perm.cons a (ih n hn d))

theorem shuffle_go_fst_perm (n : ℕ) :
    ∀ (l : List α), l.length ≤ n → ∀ r, ((shuffle_go n l r).1).Perm l := by
  induction n with
  | zero =>
    intro l hl r
    have : l = [] := List.eq_nil_of_length_eq_zero (Nat.le_zero.mp hl)
    subst this
    exact List.Perm.refl _
  | succ n ih =>
    intro l hl r
    cases l with
    | nil => exact List.Perm.refl _
    | cons a as =>
      show ((a :: as).getD ((nextRand r).1 % (a :: as).length) a ::
        (shuffle_go n ((a :: as).eraseIdx ((nextRand r).1 % (a :: as).length))
          (nextRand r).2).1).Perm (a :: as)
      have hlt : (nextRand r).1 % (a :: as).length < (a :: as).length :=
        Nat.mod_lt _ (by simp)
      have herase : ((a :: as).eraseIdx ((nextRand r).1 % (a :: as).length)).length ≤ n := by
        simp only [List.length_eraseIdx, hlt, if_pos]
        simp at hl ⊢
        omega
      exact List.Perm.trans (List.Perm.cons _ (ih _ herase _))
        (getD_cons_eraseIdx_perm _ _ hlt a)

theorem shuffle_fst_perm (l : List α) (r : List ℕ) : ((shuffle l r).1).Perm l :=
  shuffle_go_fst_perm l.length l le_rfl r

theorem shuffle_fst_length (l : List α) (r : List ℕ) :
    ((shuffle l r).1).length = l.length :=
  (shuffle_fst_perm l r).length_eq

theorem mem_shuffle_fst {l : List α} {r : List ℕ} {a : α} :
    a ∈ (shuffle l r).1 ↔ a ∈ l :=
  (shuffle_fst_perm l r).mem_iff

/-- `get_random_pos(w, h)`: a random `[x, y]` with `x ∈ [0, w-1]`,
`y ∈ [0, h-1]`. -/
def get_random_pos (w h : ℕ) (r : List ℕ) : Cell × List ℕ :=
  let px := randint 0 ((w : ℤ) - 1) r
  let py := randint 0 ((h : ℤ) - 1) px.2
  ((px.1, py.1), py.2)

/-- `get_neighbors(x, y)`: the four axis-aligned neighbors in an order
randomized by `shuffle`. -/
def get_neighbors (x y : ℤ) (r : List ℕ) : List Cell × List ℕ :=
  shuffle [(x - 1, y), (x + 1, y), (x, y - 1), (x, y + 1)] r

theorem count_cell_eq (p : Cell) (l : List Cell) :
    l.count p = @List.count Cell instBEqOfDecidableEq p l := by
  induction l with
  | nil => rfl
  | cons a l ih =>
    rw [List.count_cons, @List.count_cons Cell instBEqOfDecidableEq, ih]
    congr 1
    by_cases hap : a = p <;> simp [hap, instBEqOfDecidableEq]

/-- C9: `get_neighbors(x, y)` returns a permutation of exactly the four
axis-aligned adjacent positions; each appears exactly once, and only the
order depends on the random outcome. -/
theorem get_neighbors_perm_four (x y : ℤ) (r : List ℕ) :
    ((get_neighbors x y r).1).Perm [(x - 1, y), (x + 1, y), (x, y - 1), (x, y + 1)] ∧
    ∀ p ∈ ([(x - 1, y), (x + 1, y), (x, y - 1), (x, y + 1)] : List Cell),
      ((get_neighbors x y r).1).count p = 1 := by
  have hperm := shuffle_fst_perm [(x - 1, y), (x + 1, y), (x, y - 1), (x, y + 1)] r
  refine ⟨hperm, ?_⟩
  intro p hp
  have h1 : ((x : ℤ) - 1, y) ≠ (x + 1, y) := by intro hc; rw [Prod.ext_iff] at hc; omega
  have h2 : ((x : ℤ) - 1, y) ≠ (x, y - 1) := by intro hc; rw [Prod.ext_iff] at hc; omega
  have h3 : ((x : ℤ) - 1, y) ≠ (x, y + 1) := by intro hc; rw [Prod.ext_iff] at hc; omega
  have h4 : ((x : ℤ) + 1, y) ≠ (x, y - 1) := by intro hc; rw [Prod.ext_iff] at hc; omega
  have h5 : ((x : ℤ) + 1, y) ≠ (x, y + 1) := by intro hc; rw [Prod.ext_iff] at hc; omega
  have h6 : ((x : ℤ), y - 1) ≠ (x, y + 1) := by intro hc; rw [Prod.ext_iff] at hc; omega
  have hnd : ([(x - 1, y), (x + 1, y), (x, y - 1), (x, y + 1)] : List Cell).Nodup := by
    simp [List.nodup_cons, h1, h2, h3, h4, h5, h6]
  have hnd' : ((get_neighbors x y r).1).Nodup := hperm.nodup_iff.mpr hnd
  rw [count_cell_eq]
  exact List.count_eq_one_of_mem hnd' (mem_shuffle_fst.mpr hp)

/-! ### Distant start and end points -/

/-- Squared Euclidean distance between two cells; `get_distance(x, y)` in the
source is `hypot(y[1] - x[1], y[0] - x[0])`, its square root. -/
def sqdist (x y : Cell) : ℤ :=
  (y.2 - x.2) ^ 2 + (y.1 - x.1) ^ 2

/-- Decides the loop guard `get_distance(start, end) < distance_threshold` of
`get_distant_points` in exact real arithmetic, where `a` is the squared
distance of the candidate pair and `b` the squared distance of the whole
grid: it holds iff `sqrt a < 4 * sqrt b / 5 - 3` (the source computes the
comparison with floating-point `hypot`). -/
def dist_lt_threshold (a b : ℤ) : Bool :=
  decide (0 < 16 * b - 25 * a - 225) &&
    decide (22500 * a < (16 * b - 25 * a - 225) ^ 2)

theorem sqdist_nonneg (x y : Cell) : 0 ≤ sqdist x y := by
  have h1 : (0 : ℤ) ≤ (y.2 - x.2) ^ 2 := sq_nonneg _
  have h2 : (0 : ℤ) ≤ (y.1 - x.1) ^ 2 := sq_nonneg _
  unfold sqdist
  omega

/-- The integer guard decides the real comparison the source makes with
floating-point `hypot`. -/
theorem dist_lt_threshold_iff {a b : ℤ} (ha : 0 ≤ a) (hb : 0 ≤ b) :
    dist_lt_threshold a b = true ↔
      Real.sqrt (a : ℝ) < 4 * Real.sqrt (b : ℝ) / 5 - 3 := by
  have har : (0 : ℝ) ≤ (a : ℝ) := by exact_mod_cast ha
  have hbr : (0 : ℝ) ≤ (b : ℝ) := by exact_mod_cast hb
  have hsa : Real.sqrt (a : ℝ) ^ 2 = (a : ℝ) := Real.sq_sqrt har
  have hsb : Real.sqrt (b : ℝ) ^ 2 = (b : ℝ) := Real.sq_sqrt hbr
  have hsa0 : (0 : ℝ) ≤ Real.sqrt (a : ℝ) := Real.sqrt_nonneg _
  have hsb0 : (0 : ℝ) ≤ Real.sqrt (b : ℝ) := Real.sqrt_nonneg _
  rw [show (Real.sqrt (a : ℝ) < 4 * Real.sqrt (b : ℝ) / 5 - 3) ↔
      (5 * Real.sqrt (a : ℝ) + 15 < 4 * Real.sqrt (b : ℝ)) from by constructor <;>
      (intro hlt; linarith)]
  simp only [dist_lt_threshold, Bool.and_eq_true, decide_eq_true_eq]
  constructor
  · rintro ⟨hr, hsq⟩
    have hrr : (0 : ℝ) < 16 * (b : ℝ) - 25 * (a : ℝ) - 225 := by exact_mod_cast hr
    have hsqr : 22500 * (a : ℝ) < (16 * (b : ℝ) - 25 * (a : ℝ) - 225) ^ 2 := by
      exact_mod_cast hsq
    have h150 : (150 * Real.sqrt (a : ℝ)) ^ 2 = 22500 * (a : ℝ) := by
      rw [mul_pow, hsa]; norm_num
    have hlt : 150 * Real.sqrt (a : ℝ) < 16 * (b : ℝ) - 25 * (a : ℝ) - 225 :=
      lt_of_pow_lt_pow_left₀ 2 (le_of_lt hrr) (by rw [h150]; exact hsqr)
    nlinarith [hsa, hsb, hsa0, hsb0]
  · intro hlt
    have hsq : (5 * Real.sqrt (a : ℝ) + 15) ^ 2 < (4 * Real.sqrt (b : ℝ)) ^ 2 := by
      have h1 : (0 : ℝ) ≤ 5 * Real.sqrt (a : ℝ) + 15 := by positivity
      exact pow_lt_pow_left₀ hlt h1 (by norm_num)
    have hexp : 25 * (a : ℝ) + 150 * Real.sqrt (a : ℝ) + 225 < 16 * (b : ℝ) := by
      nlinarith [hsa, hsb]
    have hr : (0 : ℝ) < 16 * (b : ℝ) - 25 * (a : ℝ) - 225 := by
      nlinarith [hsa0]
    have hsqr : 22500 * (a : ℝ) < (16 * (b : ℝ) - 25 * (a : ℝ) - 225) ^ 2 := by
      nlinarith [hsa0, hsa]
    constructor
    · exact_mod_cast hr
    · exact_mod_cast hsqr

/-- The retry loop of `get_distant_points`: while the candidate pair is too
close, draw a fresh pair.  The source loop is unbounded; `fuel` bounds the
number of retries in the model and `none` represents non-termination. -/
def gdp_loop (w h : ℕ) : ℕ → Cell → Cell → List ℕ → Option ((Cell × Cell) × List ℕ)
  | fuel, s, e, r =>
    if dist_lt_threshold (sqdist s e) (sqdist ((0 : ℤ), (0 : ℤ)) ((w : ℤ), (h : ℤ))) then
      match fuel with
      | 0 => none
      | fuel + 1 =>
        let ps := get_random_pos w h r
        let pe := get_random_pos w h ps.2
        gdp_loop w h fuel ps.1 pe.1 pe.2
    else some ((s, e), r)

/-- `get_distant_points(w, h)`: two random positions, resampled until they
are at least `4/5` of the grid diagonal minus 3 apart. -/
def get_distant_points (w h : ℕ) (fuel : ℕ) (r : List ℕ) :
    Option ((Cell × Cell) × List ℕ) :=
  let ps := get_random_pos w h r
  let pe := get_random_pos w h ps.2
  gdp_loop w h fuel ps.1 pe.1 pe.2

theorem gdp_loop_sound {w h : ℕ} {s e : Cell} {r r' : List ℕ} {fuel : ℕ}
    {p : Cell × Cell}
    (hres : gdp_loop w h fuel s e r = some (p, r')) :
    dist_lt_threshold (sqdist p.1 p.2)
      (sqdist ((0 : ℤ), (0 : ℤ)) ((w : ℤ), (h : ℤ))) = false := by
  induction fuel generalizing s e r with
  | zero =>
    rw [gdp_loop] at hres
    by_cases hg : dist_lt_threshold (sqdist s e)
        (sqdist ((0 : ℤ), (0 : ℤ)) ((w : ℤ), (h : ℤ))) = true
    · rw [if_pos hg] at hres
      exact Option.noConfusion hres
    · rw [if_neg hg] at hres
      have heq := Option.some.inj hres
      have hp : (s, e) = p := congrArg Prod.fst heq
      simp only [Bool.not_eq_true] at hg
      rw [← hp]
      exact hg
  | succ fuel ih =>
    rw [gdp_loop] at hres
    by_cases hg : dist_lt_threshold (sqdist s e)
        (sqdist ((0 : ℤ), (0 : ℤ)) ((w : ℤ), (h : ℤ))) = true
    · rw [if_pos hg] at hres
      exact ih hres
    · rw [if_neg hg] at hres
      have heq := Option.some.inj hres
      have hp : (s, e) = p := congrArg Prod.fst heq
      simp only [Bool.not_eq_true] at hg
      rw [← hp]
      exact hg

/-- Membership of a cell in the `w × h` grid. -/
abbrev InGrid (w h : ℕ) (p : Cell) : Prop :=
  0 ≤ p.1 ∧ p.1 < (w : ℤ) ∧ 0 ≤ p.2 ∧ p.2 < (h : ℤ)

theorem get_random_pos_InGrid {w h : ℕ} (hw : 1 ≤ w) (hh : 1 ≤ h) (r : List ℕ) :
    InGrid w h (get_random_pos w h r).1 := by
  have hw' : (0 : ℤ) < (w : ℤ) := by exact_mod_cast hw
  have hh' : (0 : ℤ) < (h : ℤ) := by exact_mod_cast hh
  unfold get_random_pos randint
  refine ⟨?_, ?_, ?_, ?_⟩
  · have := Int.emod_nonneg ((nextRand r).1 : ℤ) (by omega : ((w : ℤ) - 1 - 0 + 1) ≠ 0)
    simpa using this
  · have := Int.emod_lt_of_pos ((nextRand r).1 : ℤ) (by omega : (0 : ℤ) < (w : ℤ) - 1 - 0 + 1)
    simp only [zero_add]
    omega
  · have := Int.emod_nonneg ((nextRand (nextRand r).2).1 : ℤ)
      (by omega : ((h : ℤ) - 1 - 0 + 1) ≠ 0)
    simpa using this
  · have := Int.emod_lt_of_pos ((nextRand (nextRand r).2).1 : ℤ)
      (by omega : (0 : ℤ) < (h : ℤ) - 1 - 0 + 1)
    simp only [zero_add]
    omega

theorem gdp_loop_preserves {w h : ℕ} (Q : Cell → Prop)
    (hQ : ∀ r : List ℕ, Q (get_random_pos w h r).1) :
    ∀ {fuel : ℕ} {s e : Cell} {r r' : List ℕ} {p : Cell × Cell},
      Q s → Q e → gdp_loop w h fuel s e r = some (p, r') → Q p.1 ∧ Q p.2 := by
  intro fuel
  induction fuel with
  | zero =>
    intro s e r r' p hs he hres
    rw [gdp_loop] at hres
    by_cases hg : dist_lt_threshold (sqdist s e)
        (sqdist ((0 : ℤ), (0 : ℤ)) ((w : ℤ), (h : ℤ))) = true
    · rw [if_pos hg] at hres
      exact Option.noConfusion hres
    · rw [if_neg hg] at hres
      have hp : (s, e) = p := congrArg Prod.fst (Option.some.inj hres)
      rw [← hp]
      exact ⟨hs, he⟩
  | succ fuel ih =>
    intro s e r r' p hs he hres
    rw [gdp_loop] at hres
    by_cases hg : dist_lt_threshold (sqdist s e)
        (sqdist ((0 : ℤ), (0 : ℤ)) ((w : ℤ), (h : ℤ))) = true
    · rw [if_pos hg] at hres
      exact ih (hQ _) (hQ _) hres
    · rw [if_neg hg] at hres
      have hp : (s, e) = p := congrArg Prod.fst (Option.some.inj hres)
      rw [← hp]
      exact ⟨hs, he⟩

/-- C3: whenever `get_distant_points(w, h)` returns a pair `(start, end)`,
that pair satisfies `dist(start, end) ≥ 4 * dist((0,0),(w,h)) / 5 - 3` in
Euclidean distance. -/
theorem get_distant_points_far {w h fuel : ℕ} {r r' : List ℕ} {s e : Cell}
    (hres : get_distant_points w h fuel r = some ((s, e), r')) :
    4 * Real.sqrt ((sqdist ((0 : ℤ), (0 : ℤ)) ((w : ℤ), (h : ℤ)) : ℤ) : ℝ) / 5 - 3 ≤
      Real.sqrt ((sqdist s e : ℤ) : ℝ) := by
  unfold get_distant_points at hres
  have hguard := gdp_loop_sound hres
  rw [← Bool.not_eq_true] at hguard
  rw [dist_lt_threshold_iff (sqdist_nonneg _ _) (sqdist_nonneg _ _)] at hguard
  exact le_of_not_lt hguard

/-- Witness for C3 at `w = h = 2` with an exhausted random stream. -/
theorem get_distant_points_far_witness :
    get_distant_points 2 2 1 [] = some ((((0 : ℤ), (0 : ℤ)), ((0 : ℤ), (0 : ℤ))), []) ∧
      4 * Real.sqrt ((sqdist ((0 : ℤ), (0 : ℤ)) (((2 : ℕ) : ℤ), ((2 : ℕ) : ℤ)) : ℤ) : ℝ) / 5 - 3 ≤
        Real.sqrt ((sqdist ((0 : ℤ), (0 : ℤ)) ((0 : ℤ), (0 : ℤ)) : ℤ) : ℝ) :=
  ⟨by decide, @get_distant_points_far 2 2 1 [] [] ((0 : ℤ), (0 : ℤ)) ((0 : ℤ), (0 : ℤ)) (by decide)⟩

/-- C4 counterexample: on a 2×2 grid with an exhausted random stream the
returned start and end coincide at `(0, 0)`, so the pair returned by
`get_distant_points` need not be two distinct positions. -/
theorem get_distant_points_equal_pair :
    get_distant_points 2 2 1 [] = some ((((0 : ℤ), (0 : ℤ)), ((0 : ℤ), (0 : ℤ))), []) := by
  decide

/-- C4 (amended): the pair returned by `get_distant_points(w, h)` consists of
two positions inside the grid, and they are distinct whenever the distance
threshold is positive, i.e. when `16 * (w² + h²) > 225`; for smaller grids
(such as `w = h = 2`) the two positions may coincide. -/
theorem get_distant_points_in_grid_distinct {w h fuel : ℕ} {r r' : List ℕ}
    {s e : Cell} (hw : 2 ≤ w) (hh : 2 ≤ h)
    (hres : get_distant_points w h fuel r = some ((s, e), r')) :
    InGrid w h s ∧ InGrid w h e ∧
      (225 < 16 * ((w : ℤ) ^ 2 + (h : ℤ) ^ 2) → s ≠ e) := by
  unfold get_distant_points at hres
  have hmem := gdp_loop_preserves (InGrid w h)
    (fun r => get_random_pos_InGrid (by omega) (by omega) r)
    (get_random_pos_InGrid (by omega) (by omega) _)
    (get_random_pos_InGrid (by omega) (by omega) _) hres
  refine ⟨hmem.1, hmem.2, ?_⟩
  intro hthr hse
  have hguard := gdp_loop_sound hres
  rw [hse] at hguard
  have hzero : sqdist e e = 0 := by unfold sqdist; ring
  rw [hzero] at hguard
  have hb : sqdist ((0 : ℤ), (0 : ℤ)) ((w : ℤ), (h : ℤ)) = (h : ℤ) ^ 2 + (w : ℤ) ^ 2 := by
    unfold sqdist; ring
  rw [hb] at hguard
  unfold dist_lt_threshold at hguard
  simp only [Bool.and_eq_false_iff, decide_eq_false_iff_not, not_lt] at hguard
  rcases hguard with hg | hg
  · omega
  · have h1 : (0 : ℤ) < 16 * ((h : ℤ) ^ 2 + (w : ℤ) ^ 2) - 25 * 0 - 225 := by omega
    nlinarith [h1]

/-- Witness for C4's amended claim at `w = 16`, `h = 8`. -/
theorem get_distant_points_in_grid_distinct_witness :
    (2 ≤ 16 ∧ 2 ≤ 8 ∧
      get_distant_points 16 8 1 [0, 0, 15, 7] =
        some ((((0 : ℤ), (0 : ℤ)), ((15 : ℤ), (7 : ℤ))), [])) ∧
    (InGrid 16 8 ((0 : ℤ), (0 : ℤ)) ∧ InGrid 16 8 ((15 : ℤ), (7 : ℤ)) ∧
      (225 < 16 * (((16 : ℕ) : ℤ) ^ 2 + ((8 : ℕ) : ℤ) ^ 2) →
        (((0 : ℤ), (0 : ℤ)) : Cell) ≠ ((15 : ℤ), (7 : ℤ)))) :=
  ⟨⟨by decide, by decide, by decide⟩,
    @get_distant_points_in_grid_distinct 16 8 1 [0, 0, 15, 7] [] ((0 : ℤ), (0 : ℤ))
      ((15 : ℤ), (7 : ℤ)) (by decide) (by decide) (by decide)⟩

theorem newline_not_mem_row_flatten {w : ℕ} {p q : List Char}
    (hp : '\n' ∉ p) (hq : '\n' ∉ q) :
    '\n' ∉ (List.replicate w p ++ [q]).flatten := by
  intro hc
  rw [List.mem_flatten] at hc
  obtain ⟨l, hl, hmem⟩ := hc
  rcases List.mem_append.mp hl with hl | hl
  · exact hp ((List.eq_of_mem_replicate hl) ▸ hmem)
  · rw [List.mem_singleton] at hl
    exact hq (hl ▸ hmem)

/-- C10: the rendered string of a generated grid ends with a newline: the
empty extra row of the vertical matrix makes the output consist of the
`2h + 1` content lines each terminated by a newline, with only the very last
newline removed, so a trailing newline remains after the bottom boundary
line. -/
theorem get_maze_string_trailing_newline (w h : ℕ) :
    (get_maze_string (generate_grid w h).1 (generate_grid w h).2).getLast? = some '\n' ∧
    (get_maze_string (generate_grid w h).1 (generate_grid w h).2).count '\n' = 2 * h + 1 := by
  have hstruct := get_maze_string_structure
    (List.replicate h (List.replicate w (get_grid_part WALL false) ++ [WALL]))
    (List.replicate (h + 1) (List.replicate w (get_grid_part CORNER false) ++ [CORNER]))
    (by simp)
  have hgrid : (generate_grid w h).1 =
      List.replicate h (List.replicate w (get_grid_part WALL false) ++ [WALL]) ++ [[]] := rfl
  have hgrid2 : (generate_grid w h).2 =
      List.replicate (h + 1) (List.replicate w (get_grid_part CORNER false) ++ [CORNER]) := rfl
  rw [hgrid, hgrid2, hstruct]
  constructor
  · exact List.getLast?_concat _
  · rw [List.count_append]
    have hfree : ∀ l ∈ interleave
        ((List.replicate (h + 1) (List.replicate w (get_grid_part CORNER false) ++ [CORNER])).map
          List.flatten)
        ((List.replicate h (List.replicate w (get_grid_part WALL false) ++ [WALL])).map
          List.flatten), '\n' ∉ l := by
      intro l hl
      rcases mem_interleave hl with hm | hm <;>
        rw [List.mem_map] at hm <;> obtain ⟨row, hrow, hflat⟩ := hm <;>
        rw [← hflat] <;> rw [List.eq_of_mem_replicate hrow]
      · exact newline_not_mem_row_flatten (by decide) (by decide)
      · exact newline_not_mem_row_flatten (by decide) (by decide)
    rw [count_intercalate_newline _ hfree]
    rw [interleave_length]
    simp
    omega

/-! ### The carving traversal -/

/-- The mutable state of `dfs`: the two wall matrices, the visited matrix,
the stack of directed edges `(prev_x, prev_y, x, y)`, and the random
stream. -/
structure DfsState where
  vertical : List (List (List Char))
  horizontal : List (List (List Char))
  visited : List (List ℕ)
  stack : List (ℤ × ℤ × ℤ × ℤ)
  rand : List ℕ
  deriving DecidableEq

/-- One iteration of the `while stack` loop of `dfs` (lines 130–154).  The
Python deque pushes and pops at its right end; the head of `stack` models
that end, so the `for` loop over neighbors conses each pushed edge.  The
`print_progress` animation is a pure side effect and is not modeled. -/
def dfs_step (endp : Cell) (st : DfsState) : DfsState :=
  match st.stack with
  | [] => st
  | (px, py, x, y) :: rest =>
    if pyGet2 st.visited y x 1 = 0 then
      let visited' := pySet2 st.visited y x 1
      let vh :=
        if x = px then
          (st.vertical, pySet2 st.horizontal (max py y) px (get_grid_part CORNER true))
        else if y = py then
          (pySet2 st.vertical py (max px x) (get_grid_part WALL true), st.horizontal)
        else (st.vertical, st.horizontal)
      if (x, y) = endp then
        { vertical := vh.1, horizontal := vh.2, visited := visited',
          stack := rest, rand := st.rand }
      else
        let nb := get_neighbors x y st.rand
        { vertical := vh.1, horizontal := vh.2, visited := visited',
          stack := nb.1.foldl
            (fun s q => if pyGet2 visited' q.2 q.1 1 = 0 then (x, y, q.1, q.2) :: s else s)
            rest,
          rand := nb.2 }
    else
      { st with stack := rest }

/-- Lines 127–128 of the source: the stack seeded with the four (shuffled)
neighbor edges of `start`, and `start` marked visited.  The deque is popped
from the right, so the seeded list is reversed to put its right end at our
head. -/
def dfs_init (vertical horizontal : List (List (List Char)))
    (visited : List (List ℕ)) (start : Cell) (r : List ℕ) : DfsState :=
  let nb := get_neighbors start.1 start.2 r
  { vertical := vertical, horizontal := horizontal,
    visited := pySet2 visited start.2 start.1 1,
    stack := (nb.1.map (fun adj => (start.1, start.2, adj.1, adj.2))).reverse,
    rand := nb.2 }

/-- Number of unvisited entries of the visited matrix. -/
def countZeros (m : List (List ℕ)) : ℕ :=
  (m.map (fun row => row.count 0)).sum

/-- Bound on the number of remaining `while` iterations: the measure
`5 * unvisited + stack length` strictly decreases at every iteration. -/
def dfs_fuel (st : DfsState) : ℕ :=
  5 * countZeros st.visited + st.stack.length

/-- `dfs(vertical, horizontal, visited, start, end, print_progress)`:
the iterative carving loop.  `dfs_step` is the identity once the stack is
empty and the loop runs at most `dfs_fuel` iterations
(`dfs_step_fuel_lt`), so iterating `dfs_fuel` times computes the final
state of the `while` loop. -/
def dfs (vertical horizontal : List (List (List Char)))
    (visited : List (List ℕ)) (start endp : Cell) (r : List ℕ) : DfsState :=
  let st := dfs_init vertical horizontal visited start r
  (dfs_step endp)^[dfs_fuel st] st

/-! ### `make_maze` -/

/-- The carving phase of `make_maze`: the freshly generated visited matrix
and grid, traversed by `dfs` from `start`. -/
def carve_phase (w h : ℕ) (start endp : Cell) (r : List ℕ) : DfsState :=
  dfs (generate_grid w h).1 (generate_grid w h).2 (generate_boundaries w h)
    start endp r

/-- Lines 38–42 of `make_maze`: write the start marker and then the end
marker into the vertical matrix, keeping the flanking characters of each
cell. -/
def mark_endpoints (vertical : List (List (List Char))) (start endp : Cell) :
    List (List (List Char)) :=
  let s := pyGet2 vertical start.2 start.1 []
  let v1 := pySet2 vertical start.2 start.1 ([pyGet s 0 ' '] ++ START ++ [pyGet s 2 ' '])
  let e := pyGet2 v1 endp.2 endp.1 []
  pySet2 v1 endp.2 endp.1 ([pyGet e 0 ' '] ++ END ++ [pyGet e 2 ' '])

instance exceptDecEq {ε α : Type} [DecidableEq ε] [DecidableEq α] :
    DecidableEq (Except ε α)
  | Except.error e, Except.error e' =>
    if h : e = e' then isTrue (by rw [h])
    else isFalse (fun hc => h (Except.error.inj hc))
  | Except.error e, Except.ok a => isFalse (fun hc => Except.noConfusion hc)
  | Except.ok a, Except.error e => isFalse (fun hc => Except.noConfusion hc)
  | Except.ok a, Except.ok a' =>
    if h : a = a' then isTrue (by rw [h])
    else isFalse (fun hc => h (Except.ok.inj hc))

/-- `make_maze(w, h, print_progress)`.  `Except.error` models the
`ValueError` raised on undersized dimensions; the outer `none` models
exhaustion of the `fuel` bounding the unbounded point-selection retry loop
(whose divergence the model cannot run forever). -/
def make_maze (w h : ℕ) (r : List ℕ) (fuel : ℕ) : Option (Except String (List Char)) :=
  if w < 2 ∨ h < 2 then some (Except.error "maze dimension too small")
  else
    match get_distant_points w h fuel r with
    | none => none
    | some ((start, endp), r') =>
      let st := carve_phase w h start endp r'
      some (Except.ok (get_maze_string (mark_endpoints st.vertical start endp) st.horizontal))

/-- C2: `make_maze(w, h)` fails with the InvalidDimension `ValueError`
exactly when `w < 2` or `h < 2`; the check is the first statement of the
call, before the visited matrix, grid or start/end points are constructed,
and in the error case no partial result is produced. -/
theorem make_maze_error_iff (w h : ℕ) (r : List ℕ) (fuel : ℕ) :
    make_maze w h r fuel = some (Except.error "maze dimension too small") ↔
      w < 2 ∨ h < 2 := by
  unfold make_maze
  by_cases hd : w < 2 ∨ h < 2
  · simp [hd]
  · rw [if_neg hd]
    constructor
    · intro hc
      cases hgdp : get_distant_points w h fuel r with
      | none => rw [hgdp] at hc; exact Option.noConfusion hc
      | some p =>
        obtain ⟨⟨start, endp⟩, r'⟩ := p
        rw [hgdp] at hc
        exact Except.noConfusion (Option.some.inj hc)
    · intro hc
      exact absurd hc hd

/-- Witness for C2: `make_maze(1, 5)` raises the dimension error. -/
theorem make_maze_error_iff_witness :
    make_maze 1 5 [] 0 = some (Except.error "maze dimension too small") :=
  (make_maze_error_iff 1 5 [] 0).mpr (by decide)

/-! ### Termination of the carving loop -/

theorem dfs_step_of_stack_nil {endp : Cell} {st : DfsState} (h : st.stack = []) :
    dfs_step endp st = st := by
  unfold dfs_step
  rw [h]

theorem pyIdx_lt {n : ℕ} {i : ℤ} {j : ℕ} (h : pyIdx n i = some j) : j < n := by
  unfold pyIdx at h
  split_ifs at h with h1 h2
  · obtain ⟨h1a, h1b⟩ := h1
    have := Option.some.inj h
    omega
  · obtain ⟨h2a, h2b⟩ := h2
    have := Option.some.inj h
    omega

theorem count_zero_set_one {row : List ℕ} {j : ℕ} (hj : j < row.length)
    (h : row.getD j 1 = 0) :
    (row.set j 1).count 0 + 1 = row.count 0 := by
  induction row generalizing j with
  | nil => simp at hj
  | cons a as ih =>
    cases j with
    | zero =>
      have ha : a = 0 := by simpa using h
      subst ha
      simp [List.count_cons]
    | succ j =>
      have hj' : j < as.length := by simpa using hj
      have h' : as.getD j 1 = 0 := by simpa using h
      simp only [List.set_cons_succ, List.count_cons]
      have := ih hj' h'
      omega

theorem countZeros_set {m : List (List ℕ)} {i : ℕ} (hi : i < m.length) (r' : List ℕ) :
    countZeros (m.set i r') + (m.getD i []).count 0 = countZeros m + r'.count 0 := by
  induction m generalizing i with
  | nil => simp at hi
  | cons a as ih =>
    cases i with
    | zero => simp [countZeros]; omega
    | succ i =>
      have hi' : i < as.length := by simpa using hi
      simp only [List.set_cons_succ, countZeros, List.map_cons, List.sum_cons,
        List.getD_cons_succ]
      have := ih hi'
      unfold countZeros at this
      omega

theorem pyIdx_zero (x : ℤ) : pyIdx 0 x = none := by
  unfold pyIdx
  split_ifs with h1 h2
  · exfalso
    obtain ⟨h1a, h1b⟩ := h1
    simp at h1b
    omega
  · exfalso
    obtain ⟨h2a, h2b⟩ := h2
    simp at h2a
    omega
  · rfl

theorem pyGet_of_pyIdx_eq {l : List α} {i : ℤ} {j : ℕ}
    (hj : pyIdx l.length i = some j) (d : α) : pyGet l i d = l.getD j d := by
  unfold pyGet
  rw [hj]

theorem pyGet_of_pyIdx_none {l : List α} {i : ℤ}
    (hj : pyIdx l.length i = none) (d : α) : pyGet l i d = d := by
  unfold pyGet
  rw [hj]

theorem pySet_of_pyIdx_eq {l : List α} {i : ℤ} {j : ℕ}
    (hj : pyIdx l.length i = some j) (a : α) : pySet l i a = l.set j a := by
  unfold pySet
  rw [hj]

theorem pySet_of_pyIdx_none {l : List α} {i : ℤ}
    (hj : pyIdx l.length i = none) (a : α) : pySet l i a = l := by
  unfold pySet
  rw [hj]

theorem countZeros_pySet2 {m : List (List ℕ)} {y x : ℤ}
    (h : pyGet2 m y x 1 = 0) :
    countZeros (pySet2 m y x 1) + 1 = countZeros m := by
  unfold pyGet2 at h
  unfold pySet2
  cases hrow : pyIdx m.length y with
  | none =>
    exfalso
    rw [pyGet_of_pyIdx_none hrow] at h
    rw [show pyGet ([] : List ℕ) x 1 = 1 from by
      unfold pyGet; simp only [List.length_nil]; rw [pyIdx_zero]] at h
    exact one_ne_zero h
  | some i =>
    rw [pyGet_of_pyIdx_eq hrow] at h
    cases hcol : pyIdx (m.getD i []).length x with
    | none =>
      exfalso
      rw [pyGet_of_pyIdx_none hcol] at h
      exact one_ne_zero h
    | some j =>
      rw [pyGet_of_pyIdx_eq hcol] at h
      have hj : j < (m.getD i []).length := pyIdx_lt hcol
      have hi : i < m.length := pyIdx_lt hrow
      rw [pyGet_of_pyIdx_eq hrow, pySet_of_pyIdx_eq hcol,
        pySet_of_pyIdx_eq hrow]
      have h1 := count_zero_set_one hj h
      have h2 := countZeros_set hi ((m.getD i []).set j 1)
      omega

theorem foldl_push_length (l : List Cell) (vis' : List (List ℕ)) (x y : ℤ)
    (s : List (ℤ × ℤ × ℤ × ℤ)) :
    (l.foldl (fun acc q => if pyGet2 vis' q.2 q.1 1 = 0
      then (x, y, q.1, q.2) :: acc else acc) s).length ≤ s.length + l.length := by
  induction l generalizing s with
  | nil => simp
  | cons a l ih =>
    simp only [List.foldl_cons]
    by_cases hP : pyGet2 vis' a.2 a.1 1 = 0
    · rw [if_pos hP]
      have := ih ((x, y, a.1, a.2) :: s)
      simp only [List.length_cons] at this ⊢
      omega
    · rw [if_neg hP]
      have := ih s
      simp only [List.length_cons]
      omega

theorem dfs_step_fuel_lt {endp : Cell} {st : DfsState} (h : st.stack ≠ []) :
    dfs_fuel (dfs_step endp st) < dfs_fuel st := by
  obtain ⟨v, hm, vis, stk, rnd⟩ := st
  cases stk with
  | nil => exact absurd rfl h
  | cons top rest =>
    obtain ⟨px, py, x, y⟩ := top
    show dfs_fuel (dfs_step endp ⟨v, hm, vis, (px, py, x, y) :: rest, rnd⟩) <
      dfs_fuel ⟨v, hm, vis, (px, py, x, y) :: rest, rnd⟩
    by_cases hg : pyGet2 vis y x 1 = 0
    · have hcz := countZeros_pySet2 hg
      by_cases hend : ((x, y) : Cell) = endp
      · simp only [dfs_step, hg, if_pos, hend, if_true, if_pos]
        unfold dfs_fuel
        simp only [List.length_cons]
        omega
      · simp only [dfs_step, hg, if_pos, hend, if_false]
        unfold dfs_fuel
        simp only [List.length_cons]
        have hlen : ((get_neighbors x y rnd).1.foldl
            (fun s q => if pyGet2 (pySet2 vis y x 1) q.2 q.1 1 = 0
              then (x, y, q.1, q.2) :: s else s) rest).length ≤
            rest.length + 4 := by
          have h4 : (get_neighbors x y rnd).1.length = 4 := by
            unfold get_neighbors
            rw [shuffle_fst_length]
            rfl
          have := foldl_push_length (get_neighbors x y rnd).1
            (pySet2 vis y x 1) x y rest
          rw [h4] at this
          exact this
        simp only [dfs_fuel] at hcz ⊢
        omega
    · simp only [dfs_step, hg, if_neg, if_false]
      unfold dfs_fuel
      simp only [List.length_cons]
      omega

theorem iterate_stack_empty (endp : Cell) :
    ∀ (n : ℕ) (st : DfsState), dfs_fuel st ≤ n →
      ((dfs_step endp)^[n] st).stack = [] := by
  intro n
  induction n with
  | zero =>
    intro st hst
    have hlen : st.stack.length = 0 := by
      unfold dfs_fuel at hst
      omega
    simpa using List.eq_nil_of_length_eq_zero hlen
  | succ n ih =>
    intro st hst
    by_cases hne : st.stack = []
    · have hfix : ∀ m, (dfs_step endp)^[m] st = st := by
        intro m
        induction m with
        | zero => rfl
        | succ m ihm =>
          rw [Function.iterate_succ_apply', ihm, dfs_step_of_stack_nil hne]
      rw [hfix]
      exact hne
    · rw [Function.iterate_succ_apply]
      refine ih _ ?_
      have := @dfs_step_fuel_lt endp st hne
      omega

/-- C7: for every grid size `w, h ≥ 2`, start and end inside the grid and
every random outcome, the carving loop terminates: some finite number of
iterations of the loop body empties the stack, and the bounded run `dfs`
performs ends with an empty stack. -/
theorem dfs_terminates {w h : ℕ} (start endp : Cell) (r : List ℕ)
    (hw : 2 ≤ w) (hh : 2 ≤ h) (hs : InGrid w h start) (he : InGrid w h endp) :
    (∃ n, ((dfs_step endp)^[n]
      (dfs_init (generate_grid w h).1 (generate_grid w h).2
        (generate_boundaries w h) start r)).stack = []) ∧
    (dfs (generate_grid w h).1 (generate_grid w h).2 (generate_boundaries w h)
      start endp r).stack = [] := by
  constructor
  · exact ⟨dfs_fuel (dfs_init (generate_grid w h).1 (generate_grid w h).2
      (generate_boundaries w h) start r), iterate_stack_empty endp _ _ le_rfl⟩
  · unfold dfs
    exact iterate_stack_empty endp _ _ le_rfl

/-- Witness for C7 at `w = h = 2`, `start = (0,0)`, `end = (1,1)`. -/
theorem dfs_terminates_witness :
    (2 ≤ 2 ∧ 2 ≤ 2 ∧ InGrid 2 2 ((0 : ℤ), (0 : ℤ)) ∧ InGrid 2 2 ((1 : ℤ), (1 : ℤ))) ∧
    ((∃ n, ((dfs_step ((1 : ℤ), (1 : ℤ)))^[n]
      (dfs_init (generate_grid 2 2).1 (generate_grid 2 2).2
        (generate_boundaries 2 2) ((0 : ℤ), (0 : ℤ)) [])).stack = []) ∧
    (dfs (generate_grid 2 2).1 (generate_grid 2 2).2 (generate_boundaries 2 2)
      ((0 : ℤ), (0 : ℤ)) ((1 : ℤ), (1 : ℤ)) []).stack = []) :=
  ⟨by decide,
    dfs_terminates ((0 : ℤ), (0 : ℤ)) ((1 : ℤ), (1 : ℤ)) [] (by decide) (by decide)
      (by decide) (by decide)⟩

/-! ### Infrastructure for the carving invariant -/

theorem getD_set_self {l : List α} {j : ℕ} (h : j < l.length) (a d : α) :
    (l.set j a).getD j d = a := by
  rw [List.getD_eq_getElem _ _ (by simpa using h)]
  exact List.getElem_set_self _

theorem getD_set_ne {l : List α} {j j' : ℕ} (h : j ≠ j') (a d : α) :
    (l.set j a).getD j' d = l.getD j' d := by
  by_cases hj : j' < l.length
  · rw [List.getD_eq_getElem _ _ (by simpa using hj), List.getD_eq_getElem _ _ hj]
    exact List.getElem_set_ne h _
  · rw [List.getD_eq_default, List.getD_eq_default] <;> simp at hj ⊢ <;> omega

theorem getD_irrel {l : List α} {j : ℕ} (h : j < l.length) (d d' : α) :
    l.getD j d = l.getD j d' := by
  rw [List.getD_eq_getElem _ _ h, List.getD_eq_getElem _ _ h]

/-- The `w × h` grid as a finite set of cells. -/
def gridF (w h : ℕ) : Finset Cell :=
  Finset.Icc (0 : ℤ) ((w : ℤ) - 1) ×ˢ Finset.Icc (0 : ℤ) ((h : ℤ) - 1)

theorem mem_gridF {w h : ℕ} {p : Cell} : p ∈ gridF w h ↔ InGrid w h p := by
  unfold gridF InGrid
  rw [Finset.mem_product, Finset.mem_Icc, Finset.mem_Icc]
  constructor
  · rintro ⟨⟨h1, h2⟩, h3, h4⟩
    exact ⟨h1, by omega, h3, by omega⟩
  · rintro ⟨h1, h2, h3, h4⟩
    exact ⟨⟨h1, by omega⟩, h3, by omega⟩

theorem gridF_card (w h : ℕ) : (gridF w h).card = w * h := by
  unfold gridF
  rw [Finset.card_product, Int.card_Icc, Int.card_Icc]
  rw [show (w : ℤ) - 1 + 1 - 0 = (w : ℤ) from by ring,
    show (h : ℤ) - 1 + 1 - 0 = (h : ℤ) from by ring]
  rw [Int.toNat_natCast, Int.toNat_natCast]

/-- The four axis-aligned neighbors of a cell, in the order of
`get_neighbors`. -/
def nbrs (p : Cell) : List Cell :=
  [(p.1 - 1, p.2), (p.1 + 1, p.2), (p.1, p.2 - 1), (p.1, p.2 + 1)]

theorem get_neighbors_eq_shuffle_nbrs (x y : ℤ) (r : List ℕ) :
    get_neighbors x y r = shuffle (nbrs (x, y)) r := rfl

theorem mem_nbrs_symm {p q : Cell} (h : q ∈ nbrs p) : p ∈ nbrs q := by
  unfold nbrs at h ⊢
  obtain ⟨px, py⟩ := p
  obtain ⟨qx, qy⟩ := q
  simp only [List.mem_cons, List.mem_singleton, List.not_mem_nil, or_false,
    Prod.mk.injEq] at h ⊢
  rcases h with ⟨h1, h2⟩ | ⟨h1, h2⟩ | ⟨h1, h2⟩ | ⟨h1, h2⟩
  · exact Or.inr (Or.inl ⟨by omega, by omega⟩)
  · exact Or.inl ⟨by omega, by omega⟩
  · exact Or.inr (Or.inr (Or.inr ⟨by omega, by omega⟩))
  · exact Or.inr (Or.inr (Or.inl ⟨by omega, by omega⟩))

theorem nbrs_shape {p q : Cell} (h : q ∈ nbrs p) :
    (q.1 = p.1 ∧ (q.2 = p.2 - 1 ∨ q.2 = p.2 + 1)) ∨
    (q.2 = p.2 ∧ (q.1 = p.1 - 1 ∨ q.1 = p.1 + 1)) := by
  unfold nbrs at h
  simp only [List.mem_cons, List.mem_singleton, List.not_mem_nil, or_false] at h
  rcases h with h | h | h | h <;> rw [h] <;> simp

theorem nbrs_ne {p q : Cell} (h : q ∈ nbrs p) : q ≠ p := by
  rcases nbrs_shape h with ⟨h1, h2⟩ | ⟨h1, h2⟩ <;> intro hc <;> rw [hc] at h2 <;> omega

theorem nbrs_range {w h : ℕ} {p q : Cell} (hp : InGrid w h p) (hq : q ∈ nbrs p) :
    -1 ≤ q.1 ∧ q.1 ≤ (w : ℤ) ∧ -1 ≤ q.2 ∧ q.2 ≤ (h : ℤ) := by
  obtain ⟨h1, h2, h3, h4⟩ := hp
  rcases nbrs_shape hq with ⟨ha, hb | hb⟩ | ⟨ha, hb | hb⟩ <;> omega

theorem pyIdx_wrap {n : ℕ} {i : ℤ} (h0 : i < 0) (h1 : 0 ≤ i + n) :
    pyIdx n i = some (i + n).toNat := by
  unfold pyIdx
  rw [if_neg (by omega), if_pos ⟨h1, h0⟩]

/-- Shape of the visited matrix: `h+1` rows of `w+1` entries, all entries at
most 1, with the bottom row and right column pinned at 1 (the sentinels). -/
def VisShape (w h : ℕ) (m : List (List ℕ)) : Prop :=
  m.length = h + 1 ∧
  (∀ i : ℕ, i ≤ h → (m.getD i []).length = w + 1) ∧
  (∀ j : ℕ, (m.getD h []).getD j 1 = 1) ∧
  (∀ i : ℕ, (m.getD i []).getD w 1 = 1) ∧
  (∀ i j : ℕ, (m.getD i []).getD j 1 ≤ 1)

theorem pyGet_row_all_one {row : List ℕ} (hall : ∀ j : ℕ, row.getD j 1 = 1)
    (x : ℤ) : pyGet row x 1 = 1 := by
  unfold pyGet
  cases hidx : pyIdx row.length x with
  | none => rfl
  | some j => exact hall j

theorem pyGet2_visited_canon {w h : ℕ} {m : List (List ℕ)} (hs : VisShape w h m)
    {x y : ℤ} (hg : InGrid w h (x, y)) :
    pyGet2 m y x 1 = (m.getD y.toNat []).getD x.toNat 1 := by
  obtain ⟨hlen, hrow, -, -, -⟩ := hs
  obtain ⟨h1, h2, h3, h4⟩ := hg
  unfold pyGet2
  rw [pyGet_canon h3 (by rw [hlen]; push_cast; omega)]
  rw [pyGet_canon h1 (by rw [hrow y.toNat (by omega)]; push_cast; omega)]

theorem pyGet2_sentinel {w h : ℕ} {m : List (List ℕ)} (hs : VisShape w h m)
    {x y : ℤ} (hx : -1 ≤ x) (hx' : x ≤ (w : ℤ)) (hy : -1 ≤ y) (hy' : y ≤ (h : ℤ))
    (hout : ¬ InGrid w h (x, y)) :
    pyGet2 m y x 1 = 1 := by
  obtain ⟨hlen, hrow, hbot, hright, hle⟩ := hs
  unfold pyGet2
  by_cases hyin : 0 ≤ y ∧ y < (h : ℤ)
  · -- the row is a true grid row, so the column must be out of range
    have hxout : x = -1 ∨ x = (w : ℤ) := by
      unfold InGrid at hout
      simp only [not_and, not_lt] at hout
      omega
    rw [pyGet_canon hyin.1 (by rw [hlen]; push_cast; omega)]
    have hrlen : (m.getD y.toNat []).length = w + 1 := hrow y.toNat (by omega)
    rcases hxout with hxv | hxv <;> subst hxv
    · rw [pyGet_of_pyIdx_eq (by rw [hrlen]; exact pyIdx_wrap (by omega) (by push_cast; omega))]
      rw [show ((-1 : ℤ) + ((w : ℕ) + 1 : ℕ)).toNat = w from by push_cast; omega]
      exact hright y.toNat
    · rw [pyGet_of_pyIdx_eq (by rw [hrlen]; exact pyIdx_canon (by omega) (by push_cast; omega))]
      rw [Int.toNat_natCast]
      exact hright y.toNat
  · -- the row itself is the sentinel row (bottom row, possibly via wrap-around)
    have hyv : y = -1 ∨ y = (h : ℤ) := by omega
    have hrowbot : pyGet m y ([] : List ℕ) = m.getD h [] := by
      rcases hyv with hyv | hyv <;> subst hyv
      · rw [pyGet_of_pyIdx_eq (by rw [hlen]; exact pyIdx_wrap (by omega) (by push_cast; omega))]
        congr 1
        push_cast
        omega
      · rw [pyGet_canon (by omega) (by rw [hlen]; push_cast; omega)]
        rw [Int.toNat_natCast]
    rw [hrowbot]
    exact pyGet_row_all_one hbot x

theorem visited_guard_in_grid {w h : ℕ} {m : List (List ℕ)} (hs : VisShape w h m)
    {x y : ℤ} (hx : -1 ≤ x) (hx' : x ≤ (w : ℤ)) (hy : -1 ≤ y) (hy' : y ≤ (h : ℤ))
    (hg : pyGet2 m y x 1 = 0) : InGrid w h (x, y) := by
  by_contra hc
  rw [pyGet2_sentinel hs hx hx' hy hy' hc] at hg
  exact one_ne_zero hg

theorem pySet2_canon {m : List (List α)} {y x : ℤ} (hy0 : 0 ≤ y)
    (hy : y < (m.length : ℤ)) (hx0 : 0 ≤ x)
    (hx : x < ((m.getD y.toNat []).length : ℤ)) (a : α) :
    pySet2 m y x a = m.set y.toNat ((m.getD y.toNat []).set x.toNat a) := by
  unfold pySet2
  rw [pyGet_canon hy0 hy, pySet_canon hx0 hx, pySet_canon hy0 hy]

/-- Reading the visited matrix after marking an in-grid cell. -/
theorem pySet2_visited_read {w h : ℕ} {m : List (List ℕ)} (hs : VisShape w h m)
    {cx cy : ℤ} (hc : InGrid w h (cx, cy)) {p : Cell} (hp : InGrid w h p) :
    pyGet2 (pySet2 m cy cx 1) p.2 p.1 1 =
      if p = (cx, cy) then 1 else pyGet2 m p.2 p.1 1 := by
  set c : Cell := (cx, cy) with hcdef
  have hc2 : c.2 = cy := rfl
  have hc1 : c.1 = cx := rfl
  rw [← hc2, ← hc1]
  obtain ⟨hlen, hrow, hbot, hright, hle⟩ := hs
  obtain ⟨hc1, hc2, hc3, hc4⟩ := hc
  obtain ⟨hp1, hp2, hp3, hp4⟩ := hp
  have hrc : (m.getD c.2.toNat []).length = w + 1 := hrow c.2.toNat (by omega)
  have hrp : (m.getD p.2.toNat []).length = w + 1 := hrow p.2.toNat (by omega)
  have hcanon := pySet2_canon (m := m) hc3 (by rw [hlen]; push_cast; omega) hc1
    (by rw [hrc]; push_cast; omega) 1
  rw [hcanon]
  unfold pyGet2
  rw [pyGet_of_pyIdx_eq (l := m.set c.2.toNat ((m.getD c.2.toNat []).set c.1.toNat 1))
    (by rw [List.length_set, hlen]; exact pyIdx_canon hp3 (by push_cast; omega))]
  by_cases hrows : p.2.toNat = c.2.toNat
  · rw [hrows, getD_set_self (by rw [hlen]; omega)]
    by_cases hcols : p.1.toNat = c.1.toNat
    · have hpc : p = c := by
        obtain ⟨pa, pb⟩ := p
        obtain ⟨ca, cb⟩ := c
        simp only [Prod.mk.injEq]
        simp only at hc1 hc3 hp1 hp3 hrows hcols
        omega
      rw [if_pos hpc, pyGet_of_pyIdx_eq
        (by rw [List.length_set, hrc]; exact pyIdx_canon hp1 (by push_cast; omega))]
      rw [hcols, getD_set_self (by rw [hrc]; omega)]
    · have hpc : p ≠ c := by
        intro hcon
        rw [hcon] at hcols
        exact hcols rfl
      rw [if_neg hpc, pyGet_of_pyIdx_eq
        (by rw [List.length_set, hrc]; exact pyIdx_canon hp1 (by push_cast; omega))]
      rw [getD_set_ne (fun hcon => hcols hcon.symm)]
      rw [pyGet_canon hp3 (by rw [hlen]; push_cast; omega),
        pyGet_canon hp1 (by rw [hrows, hrc]; push_cast; omega)]
      rw [hrows]
  · have hpc : p ≠ c := by
      intro hcon
      rw [hcon] at hrows
      exact hrows rfl
    rw [if_neg hpc, getD_set_ne (fun hcon => hrows hcon.symm)]
    rw [pyGet_canon hp3 (by rw [hlen]; push_cast; omega)]

theorem VisShape_update {w h : ℕ} {m : List (List ℕ)} (hs : VisShape w h m)
    {cx cy : ℤ} (hc : InGrid w h (cx, cy)) :
    VisShape w h (pySet2 m cy cx 1) := by
  set c : Cell := (cx, cy) with hcdef
  have hc2 : c.2 = cy := rfl
  have hc1 : c.1 = cx := rfl
  rw [← hc2, ← hc1]
  obtain ⟨hlen, hrow, hbot, hright, hle⟩ := hs
  obtain ⟨hc1, hc2, hc3, hc4⟩ := hc
  have hrc : (m.getD c.2.toNat []).length = w + 1 := hrow c.2.toNat (by omega)
  have hcanon := pySet2_canon (m := m) hc3 (by rw [hlen]; push_cast; omega) hc1
    (by rw [hrc]; push_cast; omega) 1
  rw [hcanon]
  have hynat : c.2.toNat < h := by omega
  have hxnat : c.1.toNat < w := by omega
  refine ⟨by rw [List.length_set, hlen], ?_, ?_, ?_, ?_⟩
  · intro i hi
    by_cases hic : i = c.2.toNat
    · rw [hic, getD_set_self (by rw [hlen]; omega), List.length_set]
      exact hrc
    · rw [getD_set_ne (fun hcon => hic hcon.symm)]
      exact hrow i hi
  · intro j
    rw [getD_set_ne (by omega)]
    exact hbot j
  · intro i
    by_cases hic : i = c.2.toNat
    · rw [hic, getD_set_self (by rw [hlen]; omega),
        getD_set_ne (by omega)]
      exact hright c.2.toNat
    · rw [getD_set_ne (fun hcon => hic hcon.symm)]
      exact hright i
  · intro i j
    by_cases hic : i = c.2.toNat
    · rw [hic, getD_set_self (by rw [hlen]; omega)]
      by_cases hjc : j = c.1.toNat
      · rw [hjc, getD_set_self (by rw [hrc]; omega)]
      · rw [getD_set_ne (fun hcon => hjc hcon.symm)]
        exact hle c.2.toNat j
    · rw [getD_set_ne (fun hcon => hic hcon.symm)]
      exact hle i j

/-- The set of visited in-grid cells of a visited matrix. -/
def visSetM (w h : ℕ) (m : List (List ℕ)) : Finset Cell :=
  (gridF w h).filter (fun p => pyGet2 m p.2 p.1 1 = 1)

theorem mem_visSetM {w h : ℕ} {m : List (List ℕ)} {p : Cell} :
    p ∈ visSetM w h m ↔ InGrid w h p ∧ pyGet2 m p.2 p.1 1 = 1 := by
  unfold visSetM
  rw [Finset.mem_filter, mem_gridF]

theorem visSetM_update {w h : ℕ} {m : List (List ℕ)} (hs : VisShape w h m)
    {cx cy : ℤ} (hc : InGrid w h (cx, cy)) :
    visSetM w h (pySet2 m cy cx 1) = insert (cx, cy) (visSetM w h m) := by
  set c : Cell := (cx, cy) with hcdef
  have hc2 : c.2 = cy := rfl
  have hc1 : c.1 = cx := rfl
  rw [← hc2, ← hc1]
  ext p
  rw [mem_visSetM, Finset.mem_insert, mem_visSetM]
  by_cases hp : InGrid w h p
  · rw [pySet2_visited_read hs hc hp]
    by_cases hpc : p = c
    · subst hpc
      constructor
      · intro hx
        exact Or.inl rfl
      · intro hx
        exact ⟨hp, by rw [if_pos rfl]⟩
    · simp [hpc, hp]
  · constructor
    · rintro ⟨hpg, -⟩
      exact absurd hpg hp
    · rintro (hpc | ⟨hpg, -⟩)
      · rw [hpc] at hp
        exact absurd hc hp
      · exact absurd hpg hp

theorem getD_replicate_lt {n : ℕ} {a d : α} {i : ℕ} (h : i < n) :
    (List.replicate n a).getD i d = a := by
  rw [List.getD_eq_getElem _ _ (by simpa using h)]
  exact List.getElem_replicate _ _

theorem getD_row_lt {w : ℕ} {part q d : α} {k : ℕ} (hk : k < w) :
    (List.replicate w part ++ [q]).getD k d = part := by
  rw [List.getD_append _ _ _ _ (by simpa using hk)]
  exact getD_replicate_lt hk

theorem getD_row_eq {w : ℕ} {part q d : α} :
    (List.replicate w part ++ [q]).getD w d = q := by
  rw [List.getD_append_right _ _ _ _ (by simp)]
  simp

/-- Shape of the vertical wall matrix: `h` rows of `w` three-character parts
plus the right boundary wall, then the extra empty row; the left boundary
part stays fully blocked. -/
def WallShapeV (w h : ℕ) (v : List (List (List Char))) : Prop :=
  v.length = h + 1 ∧ v.getD h [] = [] ∧
  (∀ i : ℕ, i < h → (v.getD i []).length = w + 1) ∧
  (∀ i : ℕ, i < h → (v.getD i []).getD w [] = WALL) ∧
  (∀ i : ℕ, i < h → (v.getD i []).getD 0 [] = get_grid_part WALL false) ∧
  (∀ i k : ℕ, i < h → k < w →
    (v.getD i []).getD k [] = get_grid_part WALL false ∨
    (v.getD i []).getD k [] = get_grid_part WALL true)

/-- Shape of the horizontal wall matrix: `h+1` rows of `w` parts plus the
right corner; the top and bottom boundary rows stay fully blocked. -/
def WallShapeH (w h : ℕ) (hm : List (List (List Char))) : Prop :=
  hm.length = h + 1 ∧
  (∀ i : ℕ, i ≤ h → (hm.getD i []).length = w + 1) ∧
  (∀ i : ℕ, i ≤ h → (hm.getD i []).getD w [] = CORNER) ∧
  (∀ k : ℕ, k < w → (hm.getD 0 []).getD k [] = get_grid_part CORNER false) ∧
  (∀ k : ℕ, k < w → (hm.getD h []).getD k [] = get_grid_part CORNER false) ∧
  (∀ i k : ℕ, i ≤ h → k < w →
    (hm.getD i []).getD k [] = get_grid_part CORNER false ∨
    (hm.getD i []).getD k [] = get_grid_part CORNER true)

theorem WallShapeV_init (w h : ℕ) (hw : 1 ≤ w) :
    WallShapeV w h (generate_grid w h).1 := by
  unfold generate_grid
  refine ⟨by simp, ?_, ?_, ?_, ?_, ?_⟩
  · exact getD_row_eq
  · intro i hi
    rw [getD_row_lt hi]
    simp
  · intro i hi
    rw [getD_row_lt hi, getD_row_eq]
  · intro i hi
    rw [getD_row_lt hi, getD_row_lt (by omega)]
  · intro i k hi hk
    rw [getD_row_lt hi, getD_row_lt hk]
    exact Or.inl rfl

theorem WallShapeH_init (w h : ℕ) : WallShapeH w h (generate_grid w h).2 := by
  unfold generate_grid
  refine ⟨by simp, ?_, ?_, ?_, ?_, ?_⟩
  · intro i hi
    rw [getD_replicate_lt (by omega)]
    simp
  · intro i hi
    rw [getD_replicate_lt (by omega), getD_row_eq]
  · intro k hk
    rw [getD_replicate_lt (by omega), getD_row_lt hk]
  · intro k hk
    rw [getD_replicate_lt (by omega), getD_row_lt hk]
  · intro i k hi hk
    rw [getD_replicate_lt (by omega), getD_row_lt hk]
    exact Or.inl rfl

/-! ### Open adjacencies read off the wall matrices -/

/-- The carved vertical walls, as directed pairs (left cell, right cell). -/
def vEdges (w h : ℕ) (v : List (List (List Char))) : Finset (Cell × Cell) :=
  ((Finset.range h ×ˢ Finset.Icc 1 (w - 1)).filter
    (fun yk => (v.getD yk.1 []).getD yk.2 [] = get_grid_part WALL true)).image
    (fun yk => (((yk.2 : ℤ) - 1, (yk.1 : ℤ)), ((yk.2 : ℤ), (yk.1 : ℤ))))

/-- The carved horizontal walls, as directed pairs (upper cell, lower cell). -/
def hEdges (w h : ℕ) (hm : List (List (List Char))) : Finset (Cell × Cell) :=
  ((Finset.Icc 1 (h - 1) ×ˢ Finset.range w).filter
    (fun yk => (hm.getD yk.1 []).getD yk.2 [] = get_grid_part CORNER true)).image
    (fun yk => (((yk.2 : ℤ), (yk.1 : ℤ) - 1), ((yk.2 : ℤ), (yk.1 : ℤ))))

/-- All open (carved) adjacencies of the grid, read off the two matrices. -/
def openEdgesM (w h : ℕ) (v hm : List (List (List Char))) : Finset (Cell × Cell) :=
  vEdges w h v ∪ hEdges w h hm

theorem mem_vEdges {w h : ℕ} {v : List (List (List Char))} {e : Cell × Cell} :
    e ∈ vEdges w h v ↔
      ∃ y k : ℕ, y < h ∧ 1 ≤ k ∧ k ≤ w - 1 ∧
        (v.getD y []).getD k [] = get_grid_part WALL true ∧
        e = (((k : ℤ) - 1, (y : ℤ)), ((k : ℤ), (y : ℤ))) := by
  unfold vEdges
  rw [Finset.mem_image]
  constructor
  · rintro ⟨yk, hmem, himg⟩
    rw [Finset.mem_filter, Finset.mem_product, Finset.mem_range, Finset.mem_Icc] at hmem
    exact ⟨yk.1, yk.2, hmem.1.1, hmem.1.2.1, hmem.1.2.2, hmem.2, himg.symm⟩
  · rintro ⟨y, k, h1, h2, h3, h4, h5⟩
    refine ⟨(y, k), ?_, h5.symm⟩
    rw [Finset.mem_filter, Finset.mem_product, Finset.mem_range, Finset.mem_Icc]
    exact ⟨⟨h1, h2, h3⟩, h4⟩

theorem mem_hEdges {w h : ℕ} {hm : List (List (List Char))} {e : Cell × Cell} :
    e ∈ hEdges w h hm ↔
      ∃ y k : ℕ, 1 ≤ y ∧ y ≤ h - 1 ∧ k < w ∧
        (hm.getD y []).getD k [] = get_grid_part CORNER true ∧
        e = (((k : ℤ), (y : ℤ) - 1), ((k : ℤ), (y : ℤ))) := by
  unfold hEdges
  rw [Finset.mem_image]
  constructor
  · rintro ⟨yk, hmem, himg⟩
    rw [Finset.mem_filter, Finset.mem_product, Finset.mem_range, Finset.mem_Icc] at hmem
    exact ⟨yk.1, yk.2, hmem.1.1.1, hmem.1.1.2, hmem.1.2, hmem.2, himg.symm⟩
  · rintro ⟨y, k, h1, h2, h3, h4, h5⟩
    refine ⟨(y, k), ?_, h5.symm⟩
    rw [Finset.mem_filter, Finset.mem_product, Finset.mem_range, Finset.mem_Icc]
    exact ⟨⟨⟨h1, h2⟩, h3⟩, h4⟩

theorem vEdges_struct {w h : ℕ} {v : List (List (List Char))} {e : Cell × Cell}
    (he : e ∈ vEdges w h v) :
    InGrid w h e.1 ∧ InGrid w h e.2 ∧ e.2.1 = e.1.1 + 1 ∧ e.2.2 = e.1.2 := by
  rw [mem_vEdges] at he
  obtain ⟨y, k, h1, h2, h3, -, h5⟩ := he
  have hw2 : 2 ≤ w := by omega
  subst h5
  exact ⟨⟨by push_cast; omega, by push_cast; omega, by push_cast; omega, by push_cast; omega⟩,
    ⟨by push_cast; omega, by push_cast; omega, by push_cast; omega, by push_cast; omega⟩,
    by push_cast; omega, by push_cast; omega⟩

theorem hEdges_struct {w h : ℕ} {hm : List (List (List Char))} {e : Cell × Cell}
    (he : e ∈ hEdges w h hm) :
    InGrid w h e.1 ∧ InGrid w h e.2 ∧ e.2.1 = e.1.1 ∧ e.2.2 = e.1.2 + 1 := by
  rw [mem_hEdges] at he
  obtain ⟨y, k, h1, h2, h3, -, h5⟩ := he
  have hh2 : 2 ≤ h := by omega
  subst h5
  exact ⟨⟨by push_cast; omega, by push_cast; omega, by push_cast; omega, by push_cast; omega⟩,
    ⟨by push_cast; omega, by push_cast; omega, by push_cast; omega, by push_cast; omega⟩,
    by push_cast; omega, by push_cast; omega⟩

theorem openEdgesM_struct {w h : ℕ} {v hm : List (List (List Char))}
    {e : Cell × Cell} (he : e ∈ openEdgesM w h v hm) :
    InGrid w h e.1 ∧ InGrid w h e.2 ∧ e.2 ∈ nbrs e.1 ∧ e.1 ≠ e.2 := by
  rcases Finset.mem_union.mp he with he' | he'
  · obtain ⟨h1, h2, h3, h4⟩ := vEdges_struct he'
    refine ⟨h1, h2, ?_, ?_⟩
    · have he2 : e.2 = (e.1.1 + 1, e.1.2) := Prod.ext_iff.mpr ⟨h3, h4⟩
      rw [he2]
      unfold nbrs
      simp
    · intro hc
      rw [hc] at h3
      omega
  · obtain ⟨h1, h2, h3, h4⟩ := hEdges_struct he'
    refine ⟨h1, h2, ?_, ?_⟩
    · have he2 : e.2 = (e.1.1, e.1.2 + 1) := Prod.ext_iff.mpr ⟨h3, h4⟩
      rw [he2]
      unfold nbrs
      simp
    · intro hc
      rw [hc] at h4
      omega

theorem getD2_after {v : List (List α)} {i j : ℕ} (hi : i < v.length)
    (hjl : j < (v.getD i []).length) (a d : α) (y k : ℕ) :
    ((v.set i ((v.getD i []).set j a)).getD y []).getD k d =
      if y = i ∧ k = j then a else (v.getD y []).getD k d := by
  by_cases hy : y = i
  · subst hy
    rw [getD_set_self hi]
    by_cases hk : k = j
    · subst hk
      rw [getD_set_self hjl]
      simp
    · rw [getD_set_ne (fun hc => hk hc.symm)]
      simp [hk]
  · rw [getD_set_ne (fun hc => hy hc.symm)]
    simp [hy]

theorem vEdges_carve {w h : ℕ} {v : List (List (List Char))} (hs : WallShapeV w h v)
    {py k : ℤ} (hpy0 : 0 ≤ py) (hpy : py < (h : ℤ)) (hk1 : 1 ≤ k) (hk : k < (w : ℤ)) :
    vEdges w h (pySet2 v py k (get_grid_part WALL true)) =
      insert ((k - 1, py), (k, py)) (vEdges w h v) := by
  obtain ⟨hlen, hlast, hrow, -, -, -⟩ := hs
  have hrl : (v.getD py.toNat []).length = w + 1 := hrow py.toNat (by omega)
  have hcanon := pySet2_canon (m := v) hpy0 (by rw [hlen]; push_cast; omega)
    (by omega : (0 : ℤ) ≤ k) (by rw [hrl]; push_cast; omega) (get_grid_part WALL true)
  rw [hcanon]
  have hread := getD2_after (v := v) (by rw [hlen]; omega)
    (by rw [hrl]; omega : k.toNat < (v.getD py.toNat []).length) (get_grid_part WALL true) []
  have htn1 : ((k.toNat : ℤ)) = k := Int.toNat_of_nonneg (by omega)
  have htn2 : ((py.toNat : ℤ)) = py := Int.toNat_of_nonneg hpy0
  ext e
  rw [Finset.mem_insert, mem_vEdges, mem_vEdges]
  constructor
  · rintro ⟨y, k', h1, h2, h3, h4, h5⟩
    rw [hread y k'] at h4
    by_cases hcoll : y = py.toNat ∧ k' = k.toNat
    · left
      rw [h5, hcoll.1, hcoll.2, htn1, htn2]
    · rw [if_neg hcoll] at h4
      exact Or.inr ⟨y, k', h1, h2, h3, h4, h5⟩
  · rintro (he | ⟨y, k', h1, h2, h3, h4, h5⟩)
    · refine ⟨py.toNat, k.toNat, by omega, by omega, by omega, ?_, ?_⟩
      · rw [hread]
        simp
      · rw [he, htn1, htn2]
    · refine ⟨y, k', h1, h2, h3, ?_, h5⟩
      rw [hread]
      by_cases hcoll : y = py.toNat ∧ k' = k.toNat
      · rw [if_pos hcoll]
      · rw [if_neg hcoll]
        exact h4

theorem hEdges_carve {w h : ℕ} {hm : List (List (List Char))} (hs : WallShapeH w h hm)
    {j px : ℤ} (hj1 : 1 ≤ j) (hj : j < (h : ℤ)) (hpx0 : 0 ≤ px) (hpx : px < (w : ℤ)) :
    hEdges w h (pySet2 hm j px (get_grid_part CORNER true)) =
      insert ((px, j - 1), (px, j)) (hEdges w h hm) := by
  obtain ⟨hlen, hrow, -, -, -, -⟩ := hs
  have hrl : (hm.getD j.toNat []).length = w + 1 := hrow j.toNat (by omega)
  have hcanon := pySet2_canon (m := hm) (by omega : (0 : ℤ) ≤ j)
    (by rw [hlen]; push_cast; omega) hpx0 (by rw [hrl]; push_cast; omega)
    (get_grid_part CORNER true)
  rw [hcanon]
  have hread := getD2_after (v := hm) (by rw [hlen]; omega)
    (by rw [hrl]; omega : px.toNat < (hm.getD j.toNat []).length) (get_grid_part CORNER true) []
  have htn1 : ((px.toNat : ℤ)) = px := Int.toNat_of_nonneg hpx0
  have htn2 : ((j.toNat : ℤ)) = j := Int.toNat_of_nonneg (by omega)
  ext e
  rw [Finset.mem_insert, mem_hEdges, mem_hEdges]
  constructor
  · rintro ⟨y, k', h1, h2, h3, h4, h5⟩
    rw [hread y k'] at h4
    by_cases hcoll : y = j.toNat ∧ k' = px.toNat
    · left
      rw [h5, hcoll.1, hcoll.2, htn1, htn2]
    · rw [if_neg hcoll] at h4
      exact Or.inr ⟨y, k', h1, h2, h3, h4, h5⟩
  · rintro (he | ⟨y, k', h1, h2, h3, h4, h5⟩)
    · refine ⟨j.toNat, px.toNat, by omega, by omega, by omega, ?_, ?_⟩
      · rw [hread]
        simp
      · rw [he, htn1, htn2]
    · refine ⟨y, k', h1, h2, h3, ?_, h5⟩
      rw [hread]
      by_cases hcoll : y = j.toNat ∧ k' = px.toNat
      · rw [if_pos hcoll]
      · rw [if_neg hcoll]
        exact h4

theorem WallShapeV_carve {w h : ℕ} {v : List (List (List Char))}
    (hs : WallShapeV w h v) {py k : ℤ} (hpy0 : 0 ≤ py) (hpy : py < (h : ℤ))
    (hk1 : 1 ≤ k) (hk : k < (w : ℤ)) :
    WallShapeV w h (pySet2 v py k (get_grid_part WALL true)) := by
  obtain ⟨hlen, hlast, hrow, hright, hleft, htwo⟩ := hs
  have hrl : (v.getD py.toNat []).length = w + 1 := hrow py.toNat (by omega)
  have hcanon := pySet2_canon (m := v) hpy0 (by rw [hlen]; push_cast; omega)
    (by omega : (0 : ℤ) ≤ k) (by rw [hrl]; push_cast; omega) (get_grid_part WALL true)
  rw [hcanon]
  have hread := getD2_after (v := v) (by rw [hlen]; omega)
    (by rw [hrl]; omega : k.toNat < (v.getD py.toNat []).length) (get_grid_part WALL true) []
  refine ⟨by rw [List.length_set, hlen], ?_, ?_, ?_, ?_, ?_⟩
  · rw [getD_set_ne (by omega)]
    exact hlast
  · intro i hi
    by_cases hic : i = py.toNat
    · rw [hic, getD_set_self (by rw [hlen]; omega), List.length_set]
      exact hrl
    · rw [getD_set_ne (fun hc => hic hc.symm)]
      exact hrow i hi
  · intro i hi
    rw [hread i w, if_neg (by omega)]
    exact hright i hi
  · intro i hi
    rw [hread i 0, if_neg (by omega)]
    exact hleft i hi
  · intro i k' hi hk'
    rw [hread i k']
    by_cases hcoll : i = py.toNat ∧ k' = k.toNat
    · rw [if_pos hcoll]
      exact Or.inr rfl
    · rw [if_neg hcoll]
      exact htwo i k' hi hk'

theorem WallShapeH_carve {w h : ℕ} {hm : List (List (List Char))}
    (hs : WallShapeH w h hm) {j px : ℤ} (hj1 : 1 ≤ j) (hj : j < (h : ℤ))
    (hpx0 : 0 ≤ px) (hpx : px < (w : ℤ)) :
    WallShapeH w h (pySet2 hm j px (get_grid_part CORNER true)) := by
  obtain ⟨hlen, hrow, hright, htop, hbot, htwo⟩ := hs
  have hrl : (hm.getD j.toNat []).length = w + 1 := hrow j.toNat (by omega)
  have hcanon := pySet2_canon (m := hm) (by omega : (0 : ℤ) ≤ j)
    (by rw [hlen]; push_cast; omega) hpx0 (by rw [hrl]; push_cast; omega)
    (get_grid_part CORNER true)
  rw [hcanon]
  have hread := getD2_after (v := hm) (by rw [hlen]; omega)
    (by rw [hrl]; omega : px.toNat < (hm.getD j.toNat []).length) (get_grid_part CORNER true) []
  refine ⟨by rw [List.length_set, hlen], ?_, ?_, ?_, ?_, ?_⟩
  · intro i hi
    by_cases hic : i = j.toNat
    · rw [hic, getD_set_self (by rw [hlen]; omega), List.length_set]
      exact hrl
    · rw [getD_set_ne (fun hc => hic hc.symm)]
      exact hrow i hi
  · intro i hi
    rw [hread i w, if_neg (by omega)]
    exact hright i hi
  · intro k' hk'
    rw [hread 0 k', if_neg (by omega)]
    exact htop k' hk'
  · intro k' hk'
    rw [hread h k', if_neg (by omega)]
    exact hbot k' hk'
  · intro i k' hi hk'
    rw [hread i k']
    by_cases hcoll : i = j.toNat ∧ k' = px.toNat
    · rw [if_pos hcoll]
      exact Or.inr rfl
    · rw [if_neg hcoll]
      exact htwo i k' hi hk'

theorem openEdgesM_init (w h : ℕ) :
    openEdgesM w h (generate_grid w h).1 (generate_grid w h).2 = ∅ := by
  unfold openEdgesM
  rw [Finset.union_eq_empty]
  constructor
  · rw [Finset.eq_empty_iff_forall_not_mem]
    intro e he
    rw [mem_vEdges] at he
    obtain ⟨y, k, h1, h2, h3, h4, -⟩ := he
    rw [show ((generate_grid w h).1.getD y []) =
        List.replicate w (get_grid_part WALL false) ++ [WALL] from by
      unfold generate_grid
      rw [List.getD_append _ _ _ _ (by simpa using h1)]
      exact getD_replicate_lt h1] at h4
    rw [getD_row_lt (by omega)] at h4
    exact absurd h4 (by decide)
  · rw [Finset.eq_empty_iff_forall_not_mem]
    intro e he
    rw [mem_hEdges] at he
    obtain ⟨y, k, h1, h2, h3, h4, -⟩ := he
    rw [show ((generate_grid w h).2.getD y []) =
        List.replicate w (get_grid_part CORNER false) ++ [CORNER] from by
      unfold generate_grid
      exact getD_replicate_lt (by omega)] at h4
    rw [getD_row_lt h3] at h4
    exact absurd h4 (by decide)

/-! ### Symmetric adjacency from a set of directed edges, and bridges -/

/-- Two cells joined by an edge of `E`, in either orientation. -/
def AdjOf (E : Finset (Cell × Cell)) (a b : Cell) : Prop :=
  (a, b) ∈ E ∨ (b, a) ∈ E

/-- `AdjOf` with the edge `e` removed (in both orientations): the adjacency
used to state that `e` is a bridge. -/
def AdjOfExcept (E : Finset (Cell × Cell)) (e : Cell × Cell) (a b : Cell) : Prop :=
  AdjOf E a b ∧ ¬ ((a, b) = e ∨ (b, a) = e)

theorem adjOf_symm {E : Finset (Cell × Cell)} {a b : Cell} (h : AdjOf E a b) :
    AdjOf E b a := h.symm

theorem adjOf_mono {E E' : Finset (Cell × Cell)} (hsub : E ⊆ E') {a b : Cell}
    (h : AdjOf E a b) : AdjOf E' a b := by
  rcases h with h | h
  · exact Or.inl (hsub h)
  · exact Or.inr (hsub h)

theorem reachOf_mono {E E' : Finset (Cell × Cell)} (hsub : E ⊆ E') {a b : Cell}
    (h : Relation.ReflTransGen (AdjOf E) a b) :
    Relation.ReflTransGen (AdjOf E') a b :=
  Relation.ReflTransGen.mono (fun _ _ => adjOf_mono hsub) h

/-- Adding an edge to a vertex `c` untouched by `E` produces a bridge: the
two endpoints of the new edge are not connected without it. -/
theorem bridge_new_edge {E : Finset (Cell × Cell)} {e₀ : Cell × Cell}
    (hne : e₀.1 ≠ e₀.2) {c : Cell} (hc : c = e₀.1 ∨ c = e₀.2)
    (hiso : ∀ e ∈ E, e.1 ≠ c ∧ e.2 ≠ c) :
    ¬ Relation.ReflTransGen (AdjOfExcept (insert e₀ E) e₀) e₀.1 e₀.2 := by
  have hstep : ∀ u v : Cell, AdjOfExcept (insert e₀ E) e₀ u v → u ≠ c ∧ v ≠ c := by
    rintro u v ⟨hadj, hexc⟩
    rcases hadj with hm | hm
    · rcases Finset.mem_insert.mp hm with he | he
      · exact absurd (Or.inl he) hexc
      · exact ⟨(hiso _ he).1, (hiso _ he).2⟩
    · rcases Finset.mem_insert.mp hm with he | he
      · exact absurd (Or.inr he) hexc
      · exact ⟨(hiso _ he).2, (hiso _ he).1⟩
  intro hpath
  rcases hc with hc | hc
  · rcases Relation.ReflTransGen.cases_head hpath with heq | ⟨b, hstep1, -⟩
    · exact hne heq
    · exact (hstep _ _ hstep1).1 hc.symm
  · rcases Relation.ReflTransGen.cases_tail hpath with heq | ⟨b, -, hstep1⟩
    · exact hne heq.symm
    · exact (hstep _ _ hstep1).2 hc.symm

/-- Adding an edge to a vertex `c` untouched by `E` keeps every old bridge a
bridge: a path that used the new edge can be projected away from `c`. -/
theorem bridge_preserved {E : Finset (Cell × Cell)} {e₀ e : Cell × Cell}
    {c q : Cell} (he : e ∈ E)
    (he₀ : e₀ = (c, q) ∨ e₀ = (q, c)) (hcp : q ≠ c)
    (hiso : ∀ e' ∈ E, e'.1 ≠ c ∧ e'.2 ≠ c)
    (hold : ¬ Relation.ReflTransGen (AdjOfExcept E e) e.1 e.2) :
    ¬ Relation.ReflTransGen (AdjOfExcept (insert e₀ E) e) e.1 e.2 := by
  intro hpath
  apply hold
  have hπ : ∀ u v : Cell, AdjOfExcept (insert e₀ E) e u v →
      Relation.ReflTransGen (AdjOfExcept E e)
        (if u = c then q else u) (if v = c then q else v) := by
    rintro u v ⟨hadj, hexc⟩
    rcases hadj with hm | hm
    · rcases Finset.mem_insert.mp hm with hm' | hm'
      · rcases he₀ with he₀ | he₀ <;> rw [he₀] at hm' <;>
          rw [Prod.mk.injEq] at hm' <;> obtain ⟨h1, h2⟩ := hm'
        · -- u = c, v = q
          rw [if_pos h1, if_neg (show v ≠ c by rw [h2]; exact hcp), h2]
        · -- u = q, v = c
          rw [if_neg (show u ≠ c by rw [h1]; exact hcp), if_pos h2, h1]
      · have hu : u ≠ c := ((hiso _ hm').1 : (u, v).1 ≠ c)
        have hv : v ≠ c := ((hiso _ hm').2 : (u, v).2 ≠ c)
        rw [if_neg hu, if_neg hv]
        exact Relation.ReflTransGen.single ⟨Or.inl hm', hexc⟩
    · rcases Finset.mem_insert.mp hm with hm' | hm'
      · rcases he₀ with he₀ | he₀ <;> rw [he₀] at hm' <;>
          rw [Prod.mk.injEq] at hm' <;> obtain ⟨h1, h2⟩ := hm'
        · -- v = c, u = q
          rw [if_neg (show u ≠ c by rw [h2]; exact hcp), if_pos h1, h2]
        · -- v = q, u = c
          rw [if_pos h2, if_neg (show v ≠ c by rw [h1]; exact hcp), h1]
      · have hu : u ≠ c := ((hiso _ hm').2 : (v, u).2 ≠ c)
        have hv : v ≠ c := ((hiso _ hm').1 : (v, u).1 ≠ c)
        rw [if_neg hu, if_neg hv]
        exact Relation.ReflTransGen.single ⟨Or.inr hm', hexc⟩
  have hlift : ∀ {a b : Cell}, Relation.ReflTransGen (AdjOfExcept (insert e₀ E) e) a b →
      Relation.ReflTransGen (AdjOfExcept E e)
        (if a = c then q else a) (if b = c then q else b) := by
    intro a b hab
    induction hab with
    | refl => exact Relation.ReflTransGen.refl
    | tail hab hstep ih => exact ih.trans (hπ _ _ hstep)
  have hproj := hlift hpath
  rw [if_neg (hiso e he).1, if_neg (hiso e he).2] at hproj
  exact hproj

/-! ### The carving invariant -/

/-- A stack entry `(prev_x, prev_y, x, y)`: the source cell is in the grid
and already visited, and the target is one of its four neighbors. -/
def StackEntryOK (w h : ℕ) (m : List (List ℕ)) (q : ℤ × ℤ × ℤ × ℤ) : Prop :=
  InGrid w h (q.1, q.2.1) ∧ pyGet2 m q.2.1 q.1 1 = 1 ∧
  (q.2.2.1, q.2.2.2) ∈ nbrs (q.1, q.2.1)

/-- The loop invariant of `dfs`: well-shaped matrices, well-formed stack,
and the carved adjacencies forming a tree on the visited cells (edge
endpoints visited, one fewer edge than vertices, all visited cells
reachable from `start`, every edge a bridge), together with the closure
property that every neighbor of an expanded visited cell is visited or
still on the stack (`end` is never expanded unless it is `start`). -/
def InvParts (w h : ℕ) (start endp : Cell) (v hm : List (List (List Char)))
    (vis : List (List ℕ)) (stk : List (ℤ × ℤ × ℤ × ℤ)) : Prop :=
  VisShape w h vis ∧
  WallShapeV w h v ∧
  WallShapeH w h hm ∧
  (∀ q ∈ stk, StackEntryOK w h vis q) ∧
  start ∈ visSetM w h vis ∧
  (∀ p ∈ visSetM w h vis, (p = endp → p = start) →
    ∀ q ∈ nbrs p, InGrid w h q →
      q ∈ visSetM w h vis ∨ (p.1, p.2, q.1, q.2) ∈ stk) ∧
  (∀ e ∈ openEdgesM w h v hm,
    e.1 ∈ visSetM w h vis ∧ e.2 ∈ visSetM w h vis) ∧
  (openEdgesM w h v hm).card + 1 = (visSetM w h vis).card ∧
  (∀ p ∈ visSetM w h vis,
    Relation.ReflTransGen (AdjOf (openEdgesM w h v hm)) start p) ∧
  (∀ e ∈ openEdgesM w h v hm,
    ¬ Relation.ReflTransGen (AdjOfExcept (openEdgesM w h v hm) e) e.1 e.2)

def Inv (w h : ℕ) (start endp : Cell) (st : DfsState) : Prop :=
  InvParts w h start endp st.vertical st.horizontal st.visited st.stack

theorem VisShape_boundaries (w h : ℕ) : VisShape w h (generate_boundaries w h) := by
  unfold generate_boundaries
  have hrep1 : ∀ j : ℕ, (List.replicate (w + 1) (1 : ℕ)).getD j 1 = 1 := by
    intro j
    by_cases hj : j < w + 1
    · exact getD_replicate_lt hj
    · rw [List.getD_eq_default]
      simpa using Nat.le_of_not_lt hj
  refine ⟨by simp, ?_, ?_, ?_, ?_⟩
  · intro i hi
    by_cases hih : i < h
    · rw [List.getD_append _ _ _ _ (by simpa using hih), getD_replicate_lt hih]
      simp
    · have hieq : i = h := by omega
      rw [hieq, getD_row_eq]
      simp
  · intro j
    rw [getD_row_eq]
    exact hrep1 j
  · intro i
    by_cases hih : i < h
    · rw [List.getD_append _ _ _ _ (by simpa using hih), getD_replicate_lt hih,
        getD_row_eq]
    · by_cases hieq : i = h
      · rw [hieq, getD_row_eq]
        exact hrep1 w
      · have hrow0 : (List.replicate h (List.replicate w 0 ++ [1]) ++
            [List.replicate (w + 1) 1]).getD i ([] : List ℕ) = [] :=
          List.getD_eq_default _ _ (by simp; omega)
        rw [hrow0]
        rfl
  · intro i j
    by_cases hih : i < h
    · rw [List.getD_append _ _ _ _ (by simpa using hih), getD_replicate_lt hih]
      by_cases hjw : j < w
      · rw [getD_row_lt hjw]
        omega
      · by_cases hjeq : j = w
        · rw [hjeq, getD_row_eq]
        · rw [List.getD_eq_default _ _ (by simp; omega)]
    · by_cases hieq : i = h
      · rw [hieq, getD_row_eq, hrep1 j]
      · have hrow0 : (List.replicate h (List.replicate w 0 ++ [1]) ++
            [List.replicate (w + 1) 1]).getD i ([] : List ℕ) = [] :=
          List.getD_eq_default _ _ (by simp; omega)
        rw [hrow0]
        exact le_refl 1

theorem boundaries_read_zero {w h : ℕ} {p : Cell} (hp : InGrid w h p) :
    pyGet2 (generate_boundaries w h) p.2 p.1 1 = 0 := by
  obtain ⟨h1, h2, h3, h4⟩ := hp
  rw [pyGet2_visited_canon (VisShape_boundaries w h) ⟨h1, h2, h3, h4⟩]
  unfold generate_boundaries
  rw [List.getD_append _ _ _ _ (by simp; omega), getD_replicate_lt (by omega),
    getD_row_lt (by omega)]

theorem visSetM_boundaries (w h : ℕ) : visSetM w h (generate_boundaries w h) = ∅ := by
  rw [Finset.eq_empty_iff_forall_not_mem]
  intro p hp
  rw [mem_visSetM] at hp
  rw [boundaries_read_zero hp.1] at hp
  exact absurd hp.2 (by omega)

theorem Inv_init {w h : ℕ} (hw : 2 ≤ w) (hh : 2 ≤ h) {start : Cell}
    (hstart : InGrid w h start) (endp : Cell) (r : List ℕ) :
    Inv w h start endp
      (dfs_init (generate_grid w h).1 (generate_grid w h).2
        (generate_boundaries w h) start r) := by
  show InvParts w h start endp (generate_grid w h).1 (generate_grid w h).2
    (pySet2 (generate_boundaries w h) start.2 start.1 1)
    ((List.map (fun adj => (start.1, start.2, adj.1, adj.2))
      (get_neighbors start.1 start.2 r).1).reverse)
  have hvs := VisShape_boundaries w h
  have hvis' := visSetM_update hvs hstart
  rw [visSetM_boundaries] at hvis'
  have hstack : ∀ q ∈ ((get_neighbors start.1 start.2 r).1.map
      (fun adj => (start.1, start.2, adj.1, adj.2))).reverse,
      ∃ adj ∈ nbrs start, q = (start.1, start.2, adj.1, adj.2) := by
    intro q hq
    rw [List.mem_reverse, List.mem_map] at hq
    obtain ⟨adj, hadj, hadj2⟩ := hq
    rw [get_neighbors_eq_shuffle_nbrs] at hadj
    have hmem : adj ∈ nbrs (start.1, start.2) := mem_shuffle_fst.mp hadj
    exact ⟨adj, hmem, hadj2.symm⟩
  refine ⟨VisShape_update hvs hstart, WallShapeV_init w h (by omega),
    WallShapeH_init w h, ?_, ?_, ?_, ?_, ?_, ?_, ?_⟩
  · intro q hq
    obtain ⟨adj, hadjm, hadjq⟩ := hstack q hq
    subst hadjq
    refine ⟨hstart, ?_, hadjm⟩
    have hread := pySet2_visited_read hvs hstart hstart
    rw [if_pos rfl] at hread
    exact hread
  · rw [hvis']
    exact Finset.mem_insert_self _ _
  · intro p hp hcond q hq hqg
    rw [hvis'] at hp
    have hp' : p = start := by
      rcases Finset.mem_insert.mp hp with hx | hx
      · exact hx
      · exact absurd hx (Finset.not_mem_empty p)
    subst hp'
    right
    rw [List.mem_reverse, List.mem_map]
    refine ⟨q, ?_, rfl⟩
    rw [get_neighbors_eq_shuffle_nbrs]
    exact mem_shuffle_fst.mpr hq
  · intro e he
    have he' : e ∈ (∅ : Finset (Cell × Cell)) := by
      rw [← openEdgesM_init w h]
      exact he
    exact absurd he' (Finset.not_mem_empty e)
  · show (openEdgesM w h (generate_grid w h).1 (generate_grid w h).2).card + 1 =
      (visSetM w h (pySet2 (generate_boundaries w h) start.2 start.1 1)).card
    rw [openEdgesM_init, hvis']
    simp
  · intro p hp
    rw [hvis'] at hp
    have hp' : p = start := by
      rcases Finset.mem_insert.mp hp with hx | hx
      · exact hx
      · exact absurd hx (Finset.not_mem_empty p)
    subst hp'
    exact Relation.ReflTransGen.refl
  · intro e he
    have he' : e ∈ (∅ : Finset (Cell × Cell)) := by
      rw [← openEdgesM_init w h]
      exact he
    exact absurd he' (Finset.not_mem_empty e)

theorem mem_foldl_push {vis' : List (List ℕ)} {x y : ℤ} {l : List Cell}
    {s : List (ℤ × ℤ × ℤ × ℤ)} {q : ℤ × ℤ × ℤ × ℤ} :
    q ∈ l.foldl (fun acc p => if pyGet2 vis' p.2 p.1 1 = 0
      then (x, y, p.1, p.2) :: acc else acc) s ↔
    q ∈ s ∨ ∃ p ∈ l, pyGet2 vis' p.2 p.1 1 = 0 ∧ q = (x, y, p.1, p.2) := by
  induction l generalizing s with
  | nil => simp
  | cons a l ih =>
    simp only [List.foldl_cons]
    by_cases ha : pyGet2 vis' a.2 a.1 1 = 0
    · rw [if_pos ha, ih]
      constructor
      · rintro (hqa | hrest)
        · rcases List.mem_cons.mp hqa with hqa | hqa
          · exact Or.inr ⟨a, List.mem_cons_self a l, ha, hqa⟩
          · exact Or.inl hqa
        · obtain ⟨p, hp, hp0, hpq⟩ := hrest
          exact Or.inr ⟨p, List.mem_cons_of_mem a hp, hp0, hpq⟩
      · rintro (hqs | ⟨p, hp, hp0, hpq⟩)
        · exact Or.inl (List.mem_cons_of_mem _ hqs)
        · rcases List.mem_cons.mp hp with hpa | hpl
          · subst hpa
            exact Or.inl (by rw [hpq]; exact List.mem_cons_self _ _)
          · exact Or.inr ⟨p, hpl, hp0, hpq⟩
    · rw [if_neg ha, ih]
      constructor
      · rintro (hqs | ⟨p, hp, hp0, hpq⟩)
        · exact Or.inl hqs
        · exact Or.inr ⟨p, List.mem_cons_of_mem a hp, hp0, hpq⟩
      · rintro (hqs | ⟨p, hp, hp0, hpq⟩)
        · exact Or.inl hqs
        · rcases List.mem_cons.mp hp with hpa | hpl
          · subst hpa
            exact absurd hp0 ha
          · exact Or.inr ⟨p, hpl, hp0, hpq⟩

theorem visited_one_of_in_grid {w h : ℕ} {m : List (List ℕ)} (hs : VisShape w h m)
    {p : Cell} (hp : InGrid w h p) (hnz : pyGet2 m p.2 p.1 1 ≠ 0) :
    pyGet2 m p.2 p.1 1 = 1 := by
  obtain ⟨pa, pb⟩ := p
  rw [pyGet2_visited_canon hs hp] at hnz ⊢
  have := hs.2.2.2.2 pb.toNat pa.toNat
  omega

set_option maxHeartbeats 1000000 in
/-- Assembly of the invariant after the body of one productive iteration:
the popped target `(x, y)` was unvisited, it is marked visited, the wall to
its source `(px, py)` is carved (`e₀` added to the open edges), and the
stack either drops the entry (when the target is `end`) or pushes the
unvisited neighbors. -/
theorem Inv_step_assemble {w h : ℕ} {start endp : Cell}
    {vis : List (List ℕ)} {v hm v' hm' : List (List (List Char))}
    {px py x y : ℤ} {rest stk' : List (ℤ × ℤ × ℤ × ℤ)} {rnd rnd' : List ℕ}
    {e₀ : Cell × Cell}
    (hinv : Inv w h start endp ⟨v, hm, vis, (px, py, x, y) :: rest, rnd⟩)
    (hg : pyGet2 vis y x 1 = 0)
    (hWV' : WallShapeV w h v') (hWH' : WallShapeH w h hm')
    (hedges' : openEdgesM w h v' hm' = insert e₀ (openEdgesM w h v hm))
    (he₀or : e₀ = ((px, py), (x, y)) ∨ e₀ = ((x, y), (px, py)))
    (hstk : ((x, y) = endp ∧ stk' = rest) ∨
      ((x, y) ≠ endp ∧ stk' = (get_neighbors x y rnd).1.foldl
        (fun s q => if pyGet2 (pySet2 vis y x 1) q.2 q.1 1 = 0
          then (x, y, q.1, q.2) :: s else s) rest)) :
    Inv w h start endp ⟨v', hm', pySet2 vis y x 1, stk', rnd'⟩ := by
  have hparts : InvParts w h start endp v hm vis ((px, py, x, y) :: rest) := hinv
  obtain ⟨hVS, hWV, hWH, hStack, hstartm, hClos, hEnds, hCard, hReach, hBridge⟩ := hparts
  have hqfull := hStack (px, py, x, y) (List.mem_cons_self _ _)
  have hqprev : InGrid w h (px, py) := hqfull.1
  have hqvis : pyGet2 vis py px 1 = 1 := hqfull.2.1
  have hqnbr : ((x, y) : Cell) ∈ nbrs (px, py) := hqfull.2.2
  show InvParts w h start endp v' hm' (pySet2 vis y x 1) stk'
  have hrange := nbrs_range hqprev hqnbr
  have hcg : InGrid w h (x, y) :=
    visited_guard_in_grid hVS hrange.1 hrange.2.1 hrange.2.2.1 hrange.2.2.2 hg
  have hVS' : VisShape w h (pySet2 vis y x 1) := VisShape_update hVS hcg
  have hvset' : visSetM w h (pySet2 vis y x 1) =
      insert (x, y) (visSetM w h vis) := visSetM_update hVS hcg
  have hread' : ∀ p : Cell, InGrid w h p →
      pyGet2 (pySet2 vis y x 1) p.2 p.1 1 =
        if p = (x, y) then 1 else pyGet2 vis p.2 p.1 1 :=
    fun p hp => pySet2_visited_read hVS hcg hp
  have hcnot : ((x, y) : Cell) ∉ visSetM w h vis := by
    rw [mem_visSetM]
    rintro ⟨-, hv1⟩
    rw [show ((x, y) : Cell).2 = y from rfl, show ((x, y) : Cell).1 = x from rfl] at hv1
    omega
  have hprevm : ((px, py) : Cell) ∈ visSetM w h vis := mem_visSetM.mpr ⟨hqprev, hqvis⟩
  have hcstart : ((x, y) : Cell) ≠ start := fun hc => hcnot (hc ▸ hstartm)
  have hcprev : ((x, y) : Cell) ≠ (px, py) := nbrs_ne hqnbr
  have hiso : ∀ e ∈ openEdgesM w h v hm, e.1 ≠ ((x, y) : Cell) ∧ e.2 ≠ ((x, y) : Cell) := by
    intro e he
    obtain ⟨h1, h2⟩ := hEnds e he
    constructor
    · intro hc
      exact hcnot (hc ▸ h1)
    · intro hc
      exact hcnot (hc ▸ h2)
  have he₀notin : e₀ ∉ openEdgesM w h v hm := by
    intro hc
    have := hiso e₀ hc
    rcases he₀or with he₀ | he₀ <;> rw [he₀] at this
    · exact this.2 rfl
    · exact this.1 rfl
  have he₀ne : e₀.1 ≠ e₀.2 := by
    rcases he₀or with he₀ | he₀ <;> rw [he₀]
    · exact fun hc => hcprev hc.symm
    · exact hcprev
  have hstackrest : ∀ q ∈ rest, StackEntryOK w h (pySet2 vis y x 1) q := by
    intro q hq
    obtain ⟨h1, h2, h3⟩ := hStack q (List.mem_cons_of_mem _ hq)
    refine ⟨h1, ?_, h3⟩
    rw [hread' _ h1]
    by_cases hqc : ((q.1, q.2.1) : Cell) = (x, y)
    · rw [if_pos hqc]
    · rw [if_neg hqc]
      exact h2
  have hsub : openEdgesM w h v hm ⊆ insert e₀ (openEdgesM w h v hm) :=
    Finset.subset_insert _ _
  refine ⟨hVS', hWV', hWH', ?_, ?_, ?_, ?_, ?_, ?_, ?_⟩
  · -- stack entries
    intro q hq
    rcases hstk with ⟨-, hstk⟩ | ⟨-, hstk⟩
    · rw [hstk] at hq
      exact hstackrest q hq
    · rw [hstk] at hq
      rcases mem_foldl_push.mp hq with hq | ⟨p, hp, hp0, hpq⟩
      · exact hstackrest q hq
      · subst hpq
        refine ⟨hcg, ?_, ?_⟩
        · have := hread' (x, y) hcg
          rw [if_pos rfl] at this
          exact this
        · rw [get_neighbors_eq_shuffle_nbrs] at hp
          have := mem_shuffle_fst.mp hp
          simpa using this
  · -- start still visited
    rw [hvset']
    exact Finset.mem_insert_of_mem hstartm
  · -- closure
    intro p hp hcond q hq hqg
    rw [hvset'] at hp ⊢
    rcases Finset.mem_insert.mp hp with hpc | hpv
    · subst hpc
      rcases hstk with ⟨hend, hstk⟩ | ⟨hnend, hstk⟩
      · exact absurd (hcond hend) hcstart
      · by_cases hqvis' : pyGet2 (pySet2 vis y x 1) q.2 q.1 1 = 0
        · right
          rw [hstk]
          refine mem_foldl_push.mpr (Or.inr ⟨q, ?_, hqvis', rfl⟩)
          rw [get_neighbors_eq_shuffle_nbrs]
          exact mem_shuffle_fst.mpr (by simpa using hq)
        · left
          rw [Finset.mem_insert]
          right
          have h1 := visited_one_of_in_grid hVS' hqg hqvis'
          rw [hread' q hqg] at h1
          by_cases hqc : q = (x, y)
          · exact absurd hqc (nbrs_ne hq)
          · rw [if_neg hqc] at h1
            exact mem_visSetM.mpr ⟨hqg, h1⟩
    · have hold := hClos p hpv hcond q hq hqg
      rcases hold with hold | hold
      · left
        exact Finset.mem_insert_of_mem hold
      · rcases List.mem_cons.mp hold with hhead | hrest'
        · left
          rw [Prod.mk.injEq] at hhead
          obtain ⟨-, htail⟩ := hhead
          rw [Prod.mk.injEq] at htail
          obtain ⟨-, htail2⟩ := htail
          rw [Prod.mk.injEq] at htail2
          have hqxy : q = (x, y) := Prod.ext_iff.mpr ⟨htail2.1, htail2.2⟩
          rw [hqxy]
          exact Finset.mem_insert_self _ _
        · right
          rcases hstk with ⟨-, hstk⟩ | ⟨-, hstk⟩
          · rw [hstk]
            exact hrest'
          · rw [hstk]
            exact mem_foldl_push.mpr (Or.inl hrest')
  · -- edge endpoints visited
    intro e he
    rw [hedges'] at he
    rw [hvset']
    rcases Finset.mem_insert.mp he with he | he
    · subst he
      rcases he₀or with he₀ | he₀ <;> rw [he₀]
      · exact ⟨Finset.mem_insert_of_mem hprevm, Finset.mem_insert_self _ _⟩
      · exact ⟨Finset.mem_insert_self _ _, Finset.mem_insert_of_mem hprevm⟩
    · obtain ⟨h1, h2⟩ := hEnds e he
      exact ⟨Finset.mem_insert_of_mem h1, Finset.mem_insert_of_mem h2⟩
  · -- card
    rw [hedges', hvset', Finset.card_insert_of_not_mem he₀notin,
      Finset.card_insert_of_not_mem hcnot]
    omega
  · -- reach
    intro p hp
    rw [hvset'] at hp
    rw [hedges']
    rcases Finset.mem_insert.mp hp with hpc | hpv
    · subst hpc
      refine Relation.ReflTransGen.tail (b := ((px, py) : Cell))
        (reachOf_mono hsub (hReach _ hprevm)) ?_
      rcases he₀or with he₀ | he₀
      · exact Or.inl (by rw [← he₀]; exact Finset.mem_insert_self _ _)
      · exact Or.inr (by rw [← he₀]; exact Finset.mem_insert_self _ _)
    · exact reachOf_mono hsub (hReach p hpv)
  · -- bridges
    intro e he
    rw [hedges'] at he ⊢
    rcases Finset.mem_insert.mp he with he | he
    · subst he
      refine bridge_new_edge he₀ne (c := (x, y)) ?_ hiso
      rcases he₀or with he₀ | he₀ <;> rw [he₀]
      · exact Or.inr rfl
      · exact Or.inl rfl
    · refine bridge_preserved he (c := (x, y)) (q := (px, py)) ?_ ?_ hiso (hBridge e he)
      · rcases he₀or with he₀ | he₀
        · exact Or.inr (by rw [he₀])
        · exact Or.inl (by rw [he₀])
      · exact fun hc => hcprev hc.symm

set_option maxHeartbeats 1000000 in
/-- The carving invariant is preserved by one iteration of the loop. -/
theorem Inv_step {w h : ℕ} {start endp : Cell} {st : DfsState}
    (hinv : Inv w h start endp st) :
    Inv w h start endp (dfs_step endp st) := by
  obtain ⟨v, hm, vis, stk, rnd⟩ := st
  cases stk with
  | nil =>
    rw [dfs_step_of_stack_nil rfl]
    exact hinv
  | cons q rest =>
    obtain ⟨px, py, x, y⟩ := q
    have hparts : InvParts w h start endp v hm vis ((px, py, x, y) :: rest) := hinv
    have hVS : VisShape w h vis := hparts.1
    have hqfull := hparts.2.2.2.1 (px, py, x, y) (List.mem_cons_self _ _)
    have hqprev : InGrid w h (px, py) := hqfull.1
    have hqnbr : ((x, y) : Cell) ∈ nbrs (px, py) := hqfull.2.2
    have hshape : (x = px ∧ (y = py - 1 ∨ y = py + 1)) ∨
        (y = py ∧ (x = px - 1 ∨ x = px + 1)) := by
      have := nbrs_shape hqnbr
      exact this
    have hpx0 : 0 ≤ px := hqprev.1
    have hpxw : px < (w : ℤ) := hqprev.2.1
    have hpy0 : 0 ≤ py := hqprev.2.2.1
    have hpyh : py < (h : ℤ) := hqprev.2.2.2
    by_cases hg : pyGet2 vis y x 1 = 0
    · have hrange := nbrs_range hqprev hqnbr
      have hcg : InGrid w h (x, y) :=
        visited_guard_in_grid hVS hrange.1 hrange.2.1 hrange.2.2.1 hrange.2.2.2 hg
      have hx0 : 0 ≤ x := hcg.1
      have hxw : x < (w : ℤ) := hcg.2.1
      have hy0 : 0 ≤ y := hcg.2.2.1
      have hyh : y < (h : ℤ) := hcg.2.2.2
      rcases hshape with ⟨hxpx, hy⟩ | ⟨hypy, hx⟩
      · -- vertical move: a horizontal wall is carved
        have hj1 : 1 ≤ max py y := by rcases hy with hy | hy <;> omega
        have hjh : max py y < (h : ℤ) := by rcases hy with hy | hy <;> omega
        have hWH' := WallShapeH_carve hparts.2.2.1 hj1 hjh hpx0 hpxw
        have hedges' : openEdgesM w h v (pySet2 hm (max py y) px (get_grid_part CORNER true)) =
            insert ((px, max py y - 1), (px, max py y)) (openEdgesM w h v hm) := by
          show vEdges w h v ∪ hEdges w h (pySet2 hm (max py y) px (get_grid_part CORNER true)) =
            insert ((px, max py y - 1), (px, max py y)) (vEdges w h v ∪ hEdges w h hm)
          rw [hEdges_carve hparts.2.2.1 hj1 hjh hpx0 hpxw, Finset.union_insert]
        have he₀or : (((px, max py y - 1), (px, max py y)) : Cell × Cell) =
            ((px, py), (x, y)) ∨
            (((px, max py y - 1), (px, max py y)) : Cell × Cell) = ((x, y), (px, py)) := by
          subst hxpx
          rcases hy with hy | hy <;> subst hy
          · right
            have hmx : max py (py - 1) = py := by omega
            rw [hmx]
          · left
            have hmx : max py (py + 1) = py + 1 := by omega
            rw [hmx]
            norm_num
        by_cases hend : ((x, y) : Cell) = endp
        · have hstep : dfs_step endp ⟨v, hm, vis, (px, py, x, y) :: rest, rnd⟩ =
              ⟨v, pySet2 hm (max py y) px (get_grid_part CORNER true),
                pySet2 vis y x 1, rest, rnd⟩ := by
            simp only [dfs_step]
            rw [if_pos hg, if_pos hxpx, if_pos hend]
          rw [hstep]
          exact Inv_step_assemble hinv hg hparts.2.1 hWH' hedges' he₀or
            (Or.inl ⟨hend, rfl⟩)
        · have hstep : dfs_step endp ⟨v, hm, vis, (px, py, x, y) :: rest, rnd⟩ =
              ⟨v, pySet2 hm (max py y) px (get_grid_part CORNER true),
                pySet2 vis y x 1,
                (get_neighbors x y rnd).1.foldl
                  (fun s q => if pyGet2 (pySet2 vis y x 1) q.2 q.1 1 = 0
                    then (x, y, q.1, q.2) :: s else s) rest,
                (get_neighbors x y rnd).2⟩ := by
            simp only [dfs_step]
            rw [if_pos hg, if_pos hxpx, if_neg hend]
          rw [hstep]
          exact Inv_step_assemble hinv hg hparts.2.1 hWH' hedges' he₀or
            (Or.inr ⟨hend, rfl⟩)
      · -- horizontal move: a vertical wall is carved
        have hxne : ¬ (x = px) := by rcases hx with hx | hx <;> omega
        have hk1 : 1 ≤ max px x := by rcases hx with hx | hx <;> omega
        have hkw : max px x < (w : ℤ) := by rcases hx with hx | hx <;> omega
        have hWV' := WallShapeV_carve hparts.2.1 hpy0 hpyh hk1 hkw
        have hedges' : openEdgesM w h (pySet2 v py (max px x) (get_grid_part WALL true)) hm =
            insert ((max px x - 1, py), (max px x, py)) (openEdgesM w h v hm) := by
          show vEdges w h (pySet2 v py (max px x) (get_grid_part WALL true)) ∪ hEdges w h hm =
            insert ((max px x - 1, py), (max px x, py)) (vEdges w h v ∪ hEdges w h hm)
          rw [vEdges_carve hparts.2.1 hpy0 hpyh hk1 hkw, Finset.insert_union]
        have he₀or : (((max px x - 1, py), (max px x, py)) : Cell × Cell) =
            ((px, py), (x, y)) ∨
            (((max px x - 1, py), (max px x, py)) : Cell × Cell) = ((x, y), (px, py)) := by
          subst hypy
          rcases hx with hx | hx <;> subst hx
          · right
            have hmx : max px (px - 1) = px := by omega
            rw [hmx]
          · left
            have hmx : max px (px + 1) = px + 1 := by omega
            rw [hmx]
            norm_num
        by_cases hend : ((x, y) : Cell) = endp
        · have hstep : dfs_step endp ⟨v, hm, vis, (px, py, x, y) :: rest, rnd⟩ =
              ⟨pySet2 v py (max px x) (get_grid_part WALL true), hm,
                pySet2 vis y x 1, rest, rnd⟩ := by
            simp only [dfs_step]
            rw [if_pos hg, if_neg hxne, if_pos hypy, if_pos hend]
          rw [hstep]
          exact Inv_step_assemble hinv hg hWV' hparts.2.2.1 hedges' he₀or
            (Or.inl ⟨hend, rfl⟩)
        · have hstep : dfs_step endp ⟨v, hm, vis, (px, py, x, y) :: rest, rnd⟩ =
              ⟨pySet2 v py (max px x) (get_grid_part WALL true), hm,
                pySet2 vis y x 1,
                (get_neighbors x y rnd).1.foldl
                  (fun s q => if pyGet2 (pySet2 vis y x 1) q.2 q.1 1 = 0
                    then (x, y, q.1, q.2) :: s else s) rest,
                (get_neighbors x y rnd).2⟩ := by
            simp only [dfs_step]
            rw [if_pos hg, if_neg hxne, if_pos hypy, if_neg hend]
          rw [hstep]
          exact Inv_step_assemble hinv hg hWV' hparts.2.2.1 hedges' he₀or
            (Or.inr ⟨hend, rfl⟩)
    · -- the target was already visited: the entry is dropped
      have hstep : dfs_step endp ⟨v, hm, vis, (px, py, x, y) :: rest, rnd⟩ =
          ⟨v, hm, vis, rest, rnd⟩ := by
        simp only [dfs_step]
        rw [if_neg hg]
      rw [hstep]
      show InvParts w h start endp v hm vis rest
      obtain ⟨hVS', hWV, hWH, hStack, hstartm, hClos, hEnds, hCard, hReach, hBridge⟩ := hparts
      refine ⟨hVS', hWV, hWH, fun q hq => hStack q (List.mem_cons_of_mem _ hq),
        hstartm, ?_, hEnds, hCard, hReach, hBridge⟩
      intro p hp hcond q hq hqg
      rcases hClos p hp hcond q hq hqg with hv | hstk
      · exact Or.inl hv
      · rcases List.mem_cons.mp hstk with hhead | hrest
        · left
          rw [Prod.mk.injEq] at hhead
          obtain ⟨-, htail⟩ := hhead
          rw [Prod.mk.injEq] at htail
          obtain ⟨-, htail2⟩ := htail
          rw [Prod.mk.injEq] at htail2
          have hqxy : q = (x, y) := Prod.ext_iff.mpr ⟨htail2.1, htail2.2⟩
          subst hqxy
          have hval := visited_one_of_in_grid hVS hqg (by
            rw [show ((x, y) : Cell).2 = y from rfl, show ((x, y) : Cell).1 = x from rfl]
            exact hg)
          exact mem_visSetM.mpr ⟨hqg, hval⟩
        · exact Or.inr hrest

theorem Inv_iterate {w h : ℕ} {start endp : Cell} {st : DfsState}
    (hinv : Inv w h start endp st) (n : ℕ) :
    Inv w h start endp ((dfs_step endp)^[n] st) := by
  induction n with
  | zero => exact hinv
  | succ n ih =>
    rw [Function.iterate_succ_apply']
    exact Inv_step ih

/-- The outer boundary walls: the vertical walls at `x = 0` and `x = w` of
every row, and the horizontal walls of the rows `y = 0` and `y = h`. -/
def BoundaryIntact (w h : ℕ) (st : DfsState) : Prop :=
  (∀ i : ℕ, i < h → (st.vertical.getD i []).getD 0 [] = get_grid_part WALL false) ∧
  (∀ i : ℕ, i < h → (st.vertical.getD i []).getD w [] = WALL) ∧
  (∀ k : ℕ, k < w → (st.horizontal.getD 0 []).getD k [] = get_grid_part CORNER false) ∧
  (∀ k : ℕ, k < w → (st.horizontal.getD h []).getD k [] = get_grid_part CORNER false)

theorem boundaryIntact_of_inv {w h : ℕ} {start endp : Cell} {st : DfsState}
    (hinv : Inv w h start endp st) : BoundaryIntact w h st := by
  obtain ⟨-, hWV, hWH, -⟩ := hinv
  exact ⟨hWV.2.2.2.2.1, hWV.2.2.2.1, hWH.2.2.2.1, hWH.2.2.2.2.1⟩

/-- C6: on a freshly generated grid, no iteration of the carving loop ever
removes an outer boundary wall: the vertical walls at `x = 0` and
`x = width` and the horizontal walls at `y = 0` and `y = height` are
present after initialization and remain present throughout and after
carving. -/
theorem dfs_boundary_walls {w h : ℕ} (start endp : Cell) (r : List ℕ)
    (hw : 2 ≤ w) (hh : 2 ≤ h) (hs : InGrid w h start) (he : InGrid w h endp) :
    (∀ n : ℕ, BoundaryIntact w h ((dfs_step endp)^[n]
      (dfs_init (generate_grid w h).1 (generate_grid w h).2
        (generate_boundaries w h) start r))) ∧
    BoundaryIntact w h (carve_phase w h start endp r) := by
  have hbase := Inv_init hw hh hs endp r
  constructor
  · intro n
    exact boundaryIntact_of_inv (Inv_iterate hbase n)
  · exact boundaryIntact_of_inv (Inv_iterate hbase _)

/-- Witness for C6 at `w = h = 2`, `start = (0,0)`, `end = (1,1)`. -/
theorem dfs_boundary_walls_witness :
    (2 ≤ 2 ∧ 2 ≤ 2 ∧ InGrid 2 2 ((0 : ℤ), (0 : ℤ)) ∧ InGrid 2 2 ((1 : ℤ), (1 : ℤ))) ∧
    ((∀ n : ℕ, BoundaryIntact 2 2 ((dfs_step ((1 : ℤ), (1 : ℤ)))^[n]
      (dfs_init (generate_grid 2 2).1 (generate_grid 2 2).2
        (generate_boundaries 2 2) ((0 : ℤ), (0 : ℤ)) []))) ∧
    BoundaryIntact 2 2 (carve_phase 2 2 ((0 : ℤ), (0 : ℤ)) ((1 : ℤ), (1 : ℤ)) [])) :=
  ⟨by decide,
    dfs_boundary_walls ((0 : ℤ), (0 : ℤ)) ((1 : ℤ), (1 : ℤ)) [] (by decide) (by decide)
      (by decide) (by decide)⟩

/-! ### Rendering shape of the carved and marked matrices -/

theorem flatten_row_shape {w : ℕ} {row : List (List Char)}
    (hlen : row.length = w + 1)
    (hmid : ∀ j : ℕ, j < w → (row.getD j []).length = 3 ∧ '\n' ∉ row.getD j [])
    (hlast : (row.getD w []).length = 1 ∧ '\n' ∉ row.getD w []) :
    row.flatten.length = 3 * w + 1 ∧ '\n' ∉ row.flatten := by
  induction row generalizing w with
  | nil => simp at hlen
  | cons a rest ih =>
    cases w with
    | zero =>
      have hrest : rest = [] := by
        have : rest.length = 0 := by simpa using hlen
        exact List.eq_nil_of_length_eq_zero this
      subst hrest
      have := hlast
      simp only [List.getD_cons_zero] at this
      simp only [List.flatten_cons, List.flatten_nil, List.append_nil]
      exact ⟨by omega, this.2⟩
    | succ w' =>
      have hrest := ih (w := w') (by simpa using hlen)
        (fun j hj => by simpa using hmid (j + 1) (by omega))
        (by simpa using hlast)
      have ha := hmid 0 (by omega)
      simp only [List.getD_cons_zero] at ha
      simp only [List.flatten_cons]
      constructor
      · rw [List.length_append, ha.1, hrest.1]
        ring
      · intro hc
        rcases List.mem_append.mp hc with hc | hc
        · exact ha.2 hc
        · exact hrest.2 hc

theorem pyGet_mem_or_default (l : List α) (i : ℤ) (d : α) :
    pyGet l i d = d ∨ pyGet l i d ∈ l := by
  unfold pyGet
  cases hidx : pyIdx l.length i with
  | none => exact Or.inl rfl
  | some j =>
    have hj := pyIdx_lt hidx
    right
    show l.getD j d ∈ l
    rw [List.getD_eq_getElem _ _ hj]
    exact List.getElem_mem _

theorem pySet2_row_length (m : List (List α)) (i j : ℤ) (a : α) (y : ℕ) :
    ((pySet2 m i j a).getD y []).length = (m.getD y []).length := by
  show ((pySet m i (pySet (pyGet m i []) j a)).getD y []).length = (m.getD y []).length
  cases hrow : pyIdx m.length i with
  | none =>
    rw [@pySet_of_pyIdx_none _ m i hrow]
  | some r =>
    rw [@pySet_of_pyIdx_eq _ m i r hrow]
    by_cases hy : y = r
    · subst hy
      rw [getD_set_self (pyIdx_lt hrow), @pyGet_of_pyIdx_eq _ m i y hrow]
      exact pySet_length _ _ _
    · rw [getD_set_ne (fun hc => hy hc.symm)]

theorem pySet2_entry_cases (m : List (List α)) (i j : ℤ) (a : α) (y k : ℕ) (d : α) :
    ((pySet2 m i j a).getD y []).getD k d = a ∨
    ((pySet2 m i j a).getD y []).getD k d = (m.getD y []).getD k d := by
  show ((pySet m i (pySet (pyGet m i []) j a)).getD y []).getD k d = a ∨
    ((pySet m i (pySet (pyGet m i []) j a)).getD y []).getD k d = (m.getD y []).getD k d
  cases hrow : pyIdx m.length i with
  | none =>
    rw [@pySet_of_pyIdx_none _ m i hrow]
    exact Or.inr rfl
  | some r =>
    rw [@pySet_of_pyIdx_eq _ m i r hrow, @pyGet_of_pyIdx_eq _ m i r hrow]
    by_cases hy : y = r
    · subst hy
      rw [getD_set_self (pyIdx_lt hrow)]
      cases hcol : pyIdx (m.getD y []).length j with
      | none =>
        rw [@pySet_of_pyIdx_none _ (m.getD y []) j hcol]
        exact Or.inr rfl
      | some c =>
        rw [@pySet_of_pyIdx_eq _ (m.getD y []) j c hcol]
        by_cases hk : k = c
        · subst hk
          rw [getD_set_self (pyIdx_lt hcol)]
          exact Or.inl rfl
        · rw [getD_set_ne (fun hc => hk hc.symm)]
          exact Or.inr rfl
    · rw [getD_set_ne (fun hc => hy hc.symm)]
      exact Or.inr rfl

theorem render_ready {w h : ℕ} {v hm : List (List (List Char))}
    (hvlen : v.length = h + 1) (hvlast : v.getD h [] = [])
    (hvrow : ∀ i : ℕ, i < h → (v.getD i []).flatten.length = 3 * w + 1 ∧
      '\n' ∉ (v.getD i []).flatten)
    (hmlen : hm.length = h + 1)
    (hmrow : ∀ i : ℕ, i ≤ h → (hm.getD i []).flatten.length = 3 * w + 1 ∧
      '\n' ∉ (hm.getD i []).flatten) :
    ∃ hs vs : List (List Char), hs.length = h + 1 ∧ vs.length = h ∧
      get_maze_string v hm = List.intercalate ['\n'] (interleave hs vs) ++ ['\n'] ∧
      ∀ l ∈ interleave hs vs, l.length = 3 * w + 1 ∧ '\n' ∉ l := by
  have hne : v ≠ [] := by
    intro hc
    rw [hc] at hvlen
    simp at hvlen
  have hsplit : v = v.dropLast ++ [[]] := by
    have h1 := List.dropLast_append_getLast hne
    have h2 : v.getLast hne = [] := by
      rw [List.getLast_eq_getElem]
      rw [← List.getD_eq_getElem v [] (by omega)]
      rw [show v.length - 1 = h from by omega]
      exact hvlast
    rw [h2] at h1
    exact h1.symm
  have hdlen : v.dropLast.length = h := by
    rw [List.length_dropLast, hvlen]
    omega
  refine ⟨hm.map List.flatten, v.dropLast.map List.flatten,
    by rw [List.length_map, hmlen], by rw [List.length_map, hdlen], ?_, ?_⟩
  · conv_lhs => rw [hsplit]
    exact get_maze_string_structure v.dropLast hm (by rw [hmlen, hdlen])
  · intro l hl
    rcases mem_interleave hl with hl | hl <;> rw [List.mem_map] at hl <;>
      obtain ⟨row, hrow, hflat⟩ := hl <;> rw [← hflat]
    · obtain ⟨i, hi, hrowi⟩ := List.mem_iff_getElem.mp hrow
      have heq : hm.getD i [] = row := by
        rw [List.getD_eq_getElem _ _ hi, hrowi]
      have := hmrow i (by rw [hmlen] at hi; omega)
      rw [heq] at this
      exact this
    · obtain ⟨i, hi, hrowi⟩ := List.mem_iff_getElem.mp hrow
      rw [List.getElem_dropLast] at hrowi
      have hih : i < h := by rw [hdlen] at hi; exact hi
      have heq : v.getD i [] = row := by
        rw [List.getD_eq_getElem _ _ (by omega), hrowi]
      have := hvrow i hih
      rw [heq] at this
      exact this

/-- Row shape of the vertical matrix as the renderer needs it: `h` rows of
`w` three-character cell parts plus a one-character right wall, then the
extra empty row, all parts newline-free. -/
def RenderShapeV (w h : ℕ) (v : List (List (List Char))) : Prop :=
  v.length = h + 1 ∧ v.getD h [] = [] ∧
  (∀ i : ℕ, i < h → (v.getD i []).length = w + 1) ∧
  (∀ i : ℕ, i < h → ((v.getD i []).getD w []).length = 1 ∧
    '\n' ∉ (v.getD i []).getD w []) ∧
  (∀ i k : ℕ, i < h → k < w → ((v.getD i []).getD k []).length = 3 ∧
    '\n' ∉ (v.getD i []).getD k [])

theorem RenderShapeV_of_WallShapeV {w h : ℕ} {v : List (List (List Char))}
    (hs : WallShapeV w h v) : RenderShapeV w h v := by
  obtain ⟨hlen, hlast, hrow, hwall, -, hparts⟩ := hs
  refine ⟨hlen, hlast, hrow, ?_, ?_⟩
  · intro i hi
    rw [hwall i hi]
    exact ⟨by decide, by decide⟩
  · intro i k hi hk
    rcases hparts i k hi hk with hp | hp <;> rw [hp] <;> exact ⟨by decide, by decide⟩

theorem RenderShapeH_rows {w h : ℕ} {hm : List (List (List Char))}
    (hs : WallShapeH w h hm) :
    ∀ i : ℕ, i ≤ h → (hm.getD i []).flatten.length = 3 * w + 1 ∧
      '\n' ∉ (hm.getD i []).flatten := by
  obtain ⟨hlen, hrow, hcorner, -, -, hparts⟩ := hs
  intro i hi
  refine flatten_row_shape (hrow i hi) ?_ ?_
  · intro j hj
    rcases hparts i j hi hj with hp | hp <;> rw [hp] <;> exact ⟨by decide, by decide⟩
  · rw [hcorner i hi]
    exact ⟨by decide, by decide⟩

/-- Writing an endpoint marker into a render-shaped vertical matrix keeps
its shape: the new cell part is the old flanking characters around the
one-character marker. -/
theorem RenderShapeV_mark {w h : ℕ} {v : List (List (List Char))}
    (hs : RenderShapeV w h v) {p : Cell} (hp : InGrid w h p)
    (mid : List Char) (hmlen : mid.length = 1) (hmnl : '\n' ∉ mid) :
    RenderShapeV w h (pySet2 v p.2 p.1
      ([pyGet (pyGet2 v p.2 p.1 []) 0 ' '] ++ mid ++
        [pyGet (pyGet2 v p.2 p.1 []) 2 ' '])) := by
  obtain ⟨hlen, hlast, hrow, hcol, hpart⟩ := hs
  obtain ⟨hp1, hp2, hp3, hp4⟩ := hp
  have hpy : p.2.toNat < h := by omega
  have hpx : p.1.toNat < w := by omega
  have hrc : (v.getD p.2.toNat []).length = w + 1 := hrow p.2.toNat hpy
  have hsrow : '\n' ∉ (v.getD p.2.toNat []).getD p.1.toNat [] :=
    (hpart p.2.toNat p.1.toNat hpy hpx).2
  have hscanon : pyGet2 v p.2 p.1 [] = (v.getD p.2.toNat []).getD p.1.toNat [] := by
    unfold pyGet2
    rw [pyGet_canon hp3 (by rw [hlen]; push_cast; omega),
      pyGet_canon hp1 (by rw [hrc]; push_cast; omega)]
  have hq0 : pyGet (pyGet2 v p.2 p.1 []) 0 ' ' ≠ '\n' := by
    rcases pyGet_mem_or_default (pyGet2 v p.2 p.1 []) 0 ' ' with hd | hd
    · rw [hd]; decide
    · intro hc
      rw [hscanon] at hd hc
      rw [hc] at hd
      exact hsrow hd
  have hq2 : pyGet (pyGet2 v p.2 p.1 []) 2 ' ' ≠ '\n' := by
    rcases pyGet_mem_or_default (pyGet2 v p.2 p.1 []) 2 ' ' with hd | hd
    · rw [hd]; decide
    · intro hc
      rw [hscanon] at hd hc
      rw [hc] at hd
      exact hsrow hd
  have hqlen : ([pyGet (pyGet2 v p.2 p.1 []) 0 ' '] ++ mid ++
      [pyGet (pyGet2 v p.2 p.1 []) 2 ' ']).length = 3 := by
    simp [hmlen]
  have hnlq : '\n' ∉ ([pyGet (pyGet2 v p.2 p.1 []) 0 ' '] ++ mid ++
      [pyGet (pyGet2 v p.2 p.1 []) 2 ' ']) := by
    intro hc
    simp only [List.mem_append, List.mem_singleton] at hc
    rcases hc with (hc | hc) | hc
    · exact hq0 hc.symm
    · exact hmnl hc
    · exact hq2 hc.symm
  have hcanon := pySet2_canon (m := v) hp3 (by rw [hlen]; push_cast; omega) hp1
    (by rw [hrc]; push_cast; omega)
    ([pyGet (pyGet2 v p.2 p.1 []) 0 ' '] ++ mid ++ [pyGet (pyGet2 v p.2 p.1 []) 2 ' '])
  rw [hcanon]
  refine ⟨by rw [List.length_set, hlen], ?_, ?_, ?_, ?_⟩
  · rw [getD_set_ne (by omega)]
    exact hlast
  · intro i hi
    by_cases hic : i = p.2.toNat
    · rw [hic, getD_set_self (by rw [hlen]; omega), List.length_set]
      exact hrc
    · rw [getD_set_ne (fun hcon => hic hcon.symm)]
      exact hrow i hi
  · intro i hi
    by_cases hic : i = p.2.toNat
    · rw [hic, getD_set_self (by rw [hlen]; omega), getD_set_ne (by omega)]
      exact hcol p.2.toNat hpy
    · rw [getD_set_ne (fun hcon => hic hcon.symm)]
      exact hcol i hi
  · intro i k hi hk
    by_cases hic : i = p.2.toNat
    · rw [hic, getD_set_self (by rw [hlen]; omega)]
      by_cases hkc : k = p.1.toNat
      · rw [hkc, getD_set_self (by rw [hrc]; omega)]
        exact ⟨hqlen, hnlq⟩
      · rw [getD_set_ne (fun hcon => hkc hcon.symm)]
        exact hpart p.2.toNat k hpy hk
    · rw [getD_set_ne (fun hcon => hic hcon.symm)]
      exact hpart i k hi hk

theorem RenderShapeV_mark_endpoints {w h : ℕ} {v : List (List (List Char))}
    (hs : RenderShapeV w h v) {start endp : Cell}
    (hst : InGrid w h start) (hen : InGrid w h endp) :
    RenderShapeV w h (mark_endpoints v start endp) := by
  have h1 := RenderShapeV_mark hs hst START (by decide) (by decide)
  exact RenderShapeV_mark h1 hen END (by decide) (by decide)

/-- Both positions returned by `get_distant_points` lie inside the grid. -/
theorem get_distant_points_InGrid {w h fuel : ℕ} {r r' : List ℕ} {s e : Cell}
    (hw : 1 ≤ w) (hh : 1 ≤ h)
    (hres : get_distant_points w h fuel r = some ((s, e), r')) :
    InGrid w h s ∧ InGrid w h e := by
  unfold get_distant_points at hres
  exact gdp_loop_preserves (InGrid w h)
    (fun r => get_random_pos_InGrid hw hh r)
    (get_random_pos_InGrid hw hh _)
    (get_random_pos_InGrid hw hh _) hres

/-- The carving invariant holds of the state `carve_phase` produces. -/
theorem carve_phase_inv {w h : ℕ} (hw : 2 ≤ w) (hh : 2 ≤ h) {start : Cell}
    (hst : InGrid w h start) (endp : Cell) (r : List ℕ) :
    Inv w h start endp (carve_phase w h start endp r) := by
  unfold carve_phase dfs
  exact Inv_iterate (Inv_init hw hh hst endp r) _

set_option maxHeartbeats 1000000 in
/-- C8: every maze string `make_maze` returns is `height + 1`
horizontal-separator lines interleaved with `height` cell-row lines, each
line exactly `3 * width + 1` characters wide and free of newlines, joined
by single newlines with one trailing newline. -/
theorem make_maze_render_shape {w h : ℕ} {r : List ℕ} {fuel : ℕ} {m : List Char}
    (hm : make_maze w h r fuel = some (Except.ok m)) :
    ∃ hs vs : List (List Char), hs.length = h + 1 ∧ vs.length = h ∧
      m = List.intercalate ['\n'] (interleave hs vs) ++ ['\n'] ∧
      ∀ l ∈ interleave hs vs, l.length = 3 * w + 1 ∧ '\n' ∉ l := by
  unfold make_maze at hm
  by_cases hd : w < 2 ∨ h < 2
  · rw [if_pos hd] at hm
    exact Except.noConfusion (Option.some.inj hm)
  · rw [if_neg hd] at hm
    push_neg at hd
    cases hgdp : get_distant_points w h fuel r with
    | none =>
      rw [hgdp] at hm
      exact Option.noConfusion hm
    | some p =>
      obtain ⟨⟨start, endp⟩, r'⟩ := p
      rw [hgdp] at hm
      have hmeq : m = get_maze_string
          (mark_endpoints (carve_phase w h start endp r').vertical start endp)
          (carve_phase w h start endp r').horizontal :=
        (Except.ok.inj (Option.some.inj hm)).symm
      obtain ⟨hst, hen⟩ := get_distant_points_InGrid (by omega) (by omega) hgdp
      have hinv := carve_phase_inv hd.1 hd.2 hst endp r'
      obtain ⟨-, hWV, hWH, -⟩ := hinv
      have hRS := RenderShapeV_mark_endpoints (RenderShapeV_of_WallShapeV hWV) hst hen
      obtain ⟨hl1, hl2, hl3, hl4, hl5⟩ := hRS
      rw [hmeq]
      exact render_ready hl1 hl2
        (fun i hi => flatten_row_shape (hl3 i hi) (fun k hk => hl5 i k hi hk) (hl4 i hi))
        hWH.1 (RenderShapeH_rows hWH)

/-- Witness for C8 at `w = h = 2` with an exhausted random stream. -/
theorem make_maze_render_shape_witness :
    ∃ hs vs : List (List Char), hs.length = 2 + 1 ∧ vs.length = 2 ∧
      "+--+--+\n|E |  |\n+  +  +\n|     |\n+--+--+\n".toList =
        List.intercalate ['\n'] (interleave hs vs) ++ ['\n'] ∧
      ∀ l ∈ interleave hs vs, l.length = 3 * 2 + 1 ∧ '\n' ∉ l :=
  @make_maze_render_shape 2 2 [] 1
    ("+--+--+\n|E |  |\n+  +  +\n|     |\n+--+--+\n".toList) (by decide)

theorem pyGet2_mark_ne {w h : ℕ} {v : List (List (List Char))}
    (hs : RenderShapeV w h v) {c : Cell} (hc : InGrid w h c) (a : List Char)
    {p : Cell} (hp : InGrid w h p) (hne : p ≠ c) :
    pyGet2 (pySet2 v c.2 c.1 a) p.2 p.1 [] = pyGet2 v p.2 p.1 [] := by
  obtain ⟨hlen, hlast, hrow, -, -⟩ := hs
  obtain ⟨hc1, hc2, hc3, hc4⟩ := hc
  obtain ⟨hp1, hp2, hp3, hp4⟩ := hp
  have hrc : (v.getD c.2.toNat []).length = w + 1 := hrow c.2.toNat (by omega)
  rw [pySet2_canon (m := v) hc3 (by rw [hlen]; push_cast; omega) hc1
    (by rw [hrc]; push_cast; omega)]
  unfold pyGet2
  rw [pyGet_canon (l := v.set c.2.toNat ((v.getD c.2.toNat []).set c.1.toNat a))
      hp3 (by rw [List.length_set, hlen]; push_cast; omega),
    pyGet_canon (l := v) hp3 (by rw [hlen]; push_cast; omega)]
  by_cases hyy : p.2.toNat = c.2.toNat
  · rw [hyy, getD_set_self (by rw [hlen]; omega)]
    have hxx : p.1.toNat ≠ c.1.toNat := by
      intro hcon
      exact hne (Prod.ext_iff.mpr ⟨by omega, by omega⟩)
    rw [pyGet_canon (l := (v.getD c.2.toNat []).set c.1.toNat a) hp1
        (by rw [List.length_set, hrc]; push_cast; omega),
      pyGet_canon (l := v.getD c.2.toNat []) hp1 (by rw [hrc]; push_cast; omega)]
    exact getD_set_ne (fun hcon => hxx hcon.symm) _ _
  · rw [getD_set_ne (fun hcon => hyy hcon.symm)]

theorem pyGet2_mark_endpoints_ne {w h : ℕ} {v : List (List (List Char))}
    (hs : RenderShapeV w h v) {start endp : Cell}
    (hst : InGrid w h start) (hen : InGrid w h endp)
    {p : Cell} (hp : InGrid w h p) (hps : p ≠ start) (hpe : p ≠ endp) :
    pyGet2 (mark_endpoints v start endp) p.2 p.1 [] = pyGet2 v p.2 p.1 [] := by
  have hV1 := RenderShapeV_mark hs hst START (by decide) (by decide)
  calc pyGet2 (mark_endpoints v start endp) p.2 p.1 []
      = pyGet2 (pySet2 v start.2 start.1
          ([pyGet (pyGet2 v start.2 start.1 []) 0 ' '] ++ START ++
            [pyGet (pyGet2 v start.2 start.1 []) 2 ' '])) p.2 p.1 [] :=
        pyGet2_mark_ne hV1 hen _ hp hpe
    _ = pyGet2 v p.2 p.1 [] := pyGet2_mark_ne hs hst _ hp hps

/-- C5 counterexample: `make_maze` does mutate the vertical wall matrix
between the end of `dfs` and the call to `get_maze_string`: the start/end
marker writes of lines 39–42 change the entries at the start and end
cells, so the vertical matrix the renderer receives is not the one `dfs`
produced. -/
theorem mark_endpoints_mutates :
    mark_endpoints (carve_phase 2 2 ((0 : ℤ), (0 : ℤ)) ((0 : ℤ), (0 : ℤ)) []).vertical
        ((0 : ℤ), (0 : ℤ)) ((0 : ℤ), (0 : ℤ)) ≠
      (carve_phase 2 2 ((0 : ℤ), (0 : ℤ)) ((0 : ℤ), (0 : ℤ)) []).vertical := by
  decide

set_option maxHeartbeats 1000000 in
/-- C5 (amended): after `dfs` finishes, `make_maze` passes the horizontal
matrix to `get_maze_string` exactly as `dfs` produced it, and the vertical
matrix it passes is the `dfs` output with only the two marker cells
rewritten: at every in-grid cell other than `start` and `end` the vertical
matrix the renderer receives agrees with the one `dfs` produced. -/
theorem make_maze_renderer_frame {w h : ℕ} {r : List ℕ} {fuel : ℕ} {m : List Char}
    (hm : make_maze w h r fuel = some (Except.ok m)) :
    ∃ start endp : Cell, ∃ r' : List ℕ,
      get_distant_points w h fuel r = some ((start, endp), r') ∧
      InGrid w h start ∧ InGrid w h endp ∧
      m = get_maze_string
        (mark_endpoints (carve_phase w h start endp r').vertical start endp)
        (carve_phase w h start endp r').horizontal ∧
      ∀ p : Cell, InGrid w h p → p ≠ start → p ≠ endp →
        pyGet2 (mark_endpoints (carve_phase w h start endp r').vertical start endp)
          p.2 p.1 [] =
        pyGet2 (carve_phase w h start endp r').vertical p.2 p.1 [] := by
  unfold make_maze at hm
  by_cases hd : w < 2 ∨ h < 2
  · rw [if_pos hd] at hm
    exact Except.noConfusion (Option.some.inj hm)
  · rw [if_neg hd] at hm
    push_neg at hd
    cases hgdp : get_distant_points w h fuel r with
    | none =>
      rw [hgdp] at hm
      exact Option.noConfusion hm
    | some p =>
      obtain ⟨⟨start, endp⟩, r'⟩ := p
      rw [hgdp] at hm
      have hmeq : m = get_maze_string
          (mark_endpoints (carve_phase w h start endp r').vertical start endp)
          (carve_phase w h start endp r').horizontal :=
        (Except.ok.inj (Option.some.inj hm)).symm
      obtain ⟨hst, hen⟩ := get_distant_points_InGrid (by omega) (by omega) hgdp
      have hinv := carve_phase_inv hd.1 hd.2 hst endp r'
      obtain ⟨-, hWV, -⟩ := hinv
      refine ⟨start, endp, r', rfl, hst, hen, hmeq, ?_⟩
      intro q hq hqs hqe
      exact pyGet2_mark_endpoints_ne (RenderShapeV_of_WallShapeV hWV) hst hen hq hqs hqe

/-- Witness for C5's amended claim at `w = h = 2` with an exhausted random
stream. -/
theorem make_maze_renderer_frame_witness :
    ∃ start endp : Cell, ∃ r' : List ℕ,
      get_distant_points 2 2 1 [] = some ((start, endp), r') ∧
      InGrid 2 2 start ∧ InGrid 2 2 endp ∧
      "+--+--+\n|E |  |\n+  +  +\n|     |\n+--+--+\n".toList = get_maze_string
        (mark_endpoints (carve_phase 2 2 start endp r').vertical start endp)
        (carve_phase 2 2 start endp r').horizontal ∧
      ∀ p : Cell, InGrid 2 2 p → p ≠ start → p ≠ endp →
        pyGet2 (mark_endpoints (carve_phase 2 2 start endp r').vertical start endp)
          p.2 p.1 [] =
        pyGet2 (carve_phase 2 2 start endp r').vertical p.2 p.1 [] :=
  @make_maze_renderer_frame 2 2 [] 1
    ("+--+--+\n|E |  |\n+  +  +\n|     |\n+--+--+\n".toList) (by decide)

/-! ### Connectivity of the carved maze -/

theorem nbrs_right (x y : ℤ) : ((x + 1, y) : Cell) ∈ nbrs (x, y) := by
  simp [nbrs]

theorem nbrs_left (x y : ℤ) : ((x - 1, y) : Cell) ∈ nbrs (x, y) := by
  simp [nbrs]

theorem nbrs_below (x y : ℤ) : ((x, y + 1) : Cell) ∈ nbrs (x, y) := by
  simp [nbrs]

theorem nbrs_above (x y : ℤ) : ((x, y - 1) : Cell) ∈ nbrs (x, y) := by
  simp [nbrs]

/-- One neighbor move inside the grid between two cells that both differ
from a forbidden cell `z`. -/
def AvoidStep (w h : ℕ) (z : Cell) (a b : Cell) : Prop :=
  InGrid w h a ∧ InGrid w h b ∧ b ∈ nbrs a ∧ a ≠ z ∧ b ≠ z

theorem avoidStep_symm {w h : ℕ} {z : Cell} : Symmetric (AvoidStep w h z) := by
  rintro a b ⟨ha, hb, hnb, haz, hbz⟩
  exact ⟨hb, ha, mem_nbrs_symm hnb, hbz, haz⟩

theorem avoid_right {w h : ℕ} {z : Cell} {y : ℤ} (hy0 : 0 ≤ y) (hyh : y < (h : ℤ))
    (hyz : y ≠ z.2) :
    ∀ (n : ℕ) (x : ℤ), 0 ≤ x → x + (n : ℤ) < (w : ℤ) →
      Relation.ReflTransGen (AvoidStep w h z) ((x, y) : Cell) ((x + (n : ℤ), y) : Cell) := by
  intro n
  induction n with
  | zero =>
    intro x hx0 hxw
    simpa using Relation.ReflTransGen.refl (a := ((x, y) : Cell))
  | succ n ih =>
    intro x hx0 hxw
    have hxw' : (x + 1) + (n : ℤ) < (w : ℤ) := by push_cast at hxw ⊢; omega
    have hstep : AvoidStep w h z ((x, y) : Cell) ((x + 1, y) : Cell) := by
      refine ⟨⟨hx0, by push_cast at hxw; omega, hy0, hyh⟩,
        ⟨by omega, by push_cast at hxw; omega, hy0, hyh⟩, nbrs_right x y, ?_, ?_⟩
      · intro hc
        exact hyz (congrArg Prod.snd hc)
      · intro hc
        exact hyz (congrArg Prod.snd hc)
    have htail := ih (x + 1) (by omega) hxw'
    have heq : (((x + 1) + (n : ℤ), y) : Cell) = ((x + ((n + 1 : ℕ) : ℤ), y) : Cell) := by
      rw [show (x + 1) + (n : ℤ) = x + ((n + 1 : ℕ) : ℤ) from by push_cast; ring]
    rw [← heq]
    exact Relation.ReflTransGen.head hstep htail

theorem avoid_below {w h : ℕ} {z : Cell} {x : ℤ} (hx0 : 0 ≤ x) (hxw : x < (w : ℤ))
    (hxz : x ≠ z.1) :
    ∀ (n : ℕ) (y : ℤ), 0 ≤ y → y + (n : ℤ) < (h : ℤ) →
      Relation.ReflTransGen (AvoidStep w h z) ((x, y) : Cell) ((x, y + (n : ℤ)) : Cell) := by
  intro n
  induction n with
  | zero =>
    intro y hy0 hyh
    simpa using Relation.ReflTransGen.refl (a := ((x, y) : Cell))
  | succ n ih =>
    intro y hy0 hyh
    have hyh' : (y + 1) + (n : ℤ) < (h : ℤ) := by push_cast at hyh ⊢; omega
    have hstep : AvoidStep w h z ((x, y) : Cell) ((x, y + 1) : Cell) := by
      refine ⟨⟨hx0, hxw, hy0, by push_cast at hyh; omega⟩,
        ⟨hx0, hxw, by omega, by push_cast at hyh; omega⟩, nbrs_below x y, ?_, ?_⟩
      · intro hc
        exact hxz (congrArg Prod.fst hc)
      · intro hc
        exact hxz (congrArg Prod.fst hc)
    have htail := ih (y + 1) (by omega) hyh'
    have heq : ((x, (y + 1) + (n : ℤ)) : Cell) = ((x, y + ((n + 1 : ℕ) : ℤ)) : Cell) := by
      rw [show (y + 1) + (n : ℤ) = y + ((n + 1 : ℕ) : ℤ) from by push_cast; ring]
    rw [← heq]
    exact Relation.ReflTransGen.head hstep htail

theorem avoid_horiz {w h : ℕ} {z : Cell} {y : ℤ} (hy0 : 0 ≤ y) (hyh : y < (h : ℤ))
    (hyz : y ≠ z.2) (x1 x2 : ℤ) (h10 : 0 ≤ x1) (h1w : x1 < (w : ℤ))
    (h20 : 0 ≤ x2) (h2w : x2 < (w : ℤ)) :
    Relation.ReflTransGen (AvoidStep w h z) ((x1, y) : Cell) ((x2, y) : Cell) := by
  rcases le_total x1 x2 with hle | hle
  · have hb1 : x1 + (((x2 - x1).toNat : ℕ) : ℤ) < (w : ℤ) := by omega
    have hp := avoid_right hy0 hyh hyz (x2 - x1).toNat x1 h10 hb1
    rw [show x1 + (((x2 - x1).toNat : ℕ) : ℤ) = x2 from by omega] at hp
    exact hp
  · have hb1 : x2 + (((x1 - x2).toNat : ℕ) : ℤ) < (w : ℤ) := by omega
    have hp := avoid_right hy0 hyh hyz (x1 - x2).toNat x2 h20 hb1
    rw [show x2 + (((x1 - x2).toNat : ℕ) : ℤ) = x1 from by omega] at hp
    exact Relation.ReflTransGen.symmetric avoidStep_symm hp

theorem avoid_vert {w h : ℕ} {z : Cell} {x : ℤ} (hx0 : 0 ≤ x) (hxw : x < (w : ℤ))
    (hxz : x ≠ z.1) (y1 y2 : ℤ) (h10 : 0 ≤ y1) (h1h : y1 < (h : ℤ))
    (h20 : 0 ≤ y2) (h2h : y2 < (h : ℤ)) :
    Relation.ReflTransGen (AvoidStep w h z) ((x, y1) : Cell) ((x, y2) : Cell) := by
  rcases le_total y1 y2 with hle | hle
  · have hb1 : y1 + (((y2 - y1).toNat : ℕ) : ℤ) < (h : ℤ) := by omega
    have hp := avoid_below hx0 hxw hxz (y2 - y1).toNat y1 h10 hb1
    rw [show y1 + (((y2 - y1).toNat : ℕ) : ℤ) = y2 from by omega] at hp
    exact hp
  · have hb1 : y2 + (((y1 - y2).toNat : ℕ) : ℤ) < (h : ℤ) := by omega
    have hp := avoid_below hx0 hxw hxz (y1 - y2).toNat y2 h20 hb1
    rw [show y2 + (((y1 - y2).toNat : ℕ) : ℤ) = y1 from by omega] at hp
    exact Relation.ReflTransGen.symmetric avoidStep_symm hp

/-- From any cell that is not `z`, a `z`-avoiding walk reaches some cell of
a row that does not contain `z`, through a column that does not contain
`z`. -/
theorem avoid_to_row {w h : ℕ} (hw : 2 ≤ w) {z a : Cell} {ry : ℤ}
    (hry0 : 0 ≤ ry) (hryh : ry < (h : ℤ)) (hryz : ry ≠ z.2)
    (ha : InGrid w h a) (haz : a ≠ z) :
    ∃ x' : ℤ, 0 ≤ x' ∧ x' < (w : ℤ) ∧ x' ≠ z.1 ∧
      Relation.ReflTransGen (AvoidStep w h z) a ((x', ry) : Cell) := by
  obtain ⟨ha1, ha2, ha3, ha4⟩ := ha
  by_cases hcol : a.1 = z.1
  · set t : ℤ := if a.1 = 0 then 1 else a.1 - 1 with htdef
    have ht0 : 0 ≤ t := by rw [htdef]; split <;> omega
    have htw : t < (w : ℤ) := by rw [htdef]; split <;> omega
    have htne : t ≠ a.1 := by rw [htdef]; split <;> omega
    have htz : t ≠ z.1 := by rw [← hcol]; exact htne
    have hstep : AvoidStep w h z a ((t, a.2) : Cell) := by
      refine ⟨⟨ha1, ha2, ha3, ha4⟩, ⟨ht0, htw, ha3, ha4⟩, ?_, haz, ?_⟩
      · rw [htdef]
        by_cases h0 : a.1 = 0
        · rw [if_pos h0, show (1 : ℤ) = a.1 + 1 from by omega,
            show a = ((a.1, a.2) : Cell) from rfl]
          exact nbrs_right a.1 a.2
        · rw [if_neg h0, show a = ((a.1, a.2) : Cell) from rfl]
          exact nbrs_left a.1 a.2
      · intro hc
        exact htz (congrArg Prod.fst hc)
    have hv := avoid_vert ht0 htw htz a.2 ry ha3 ha4 hry0 hryh
    exact ⟨t, ht0, htw, htz, Relation.ReflTransGen.head hstep hv⟩
  · have hv := avoid_vert ha1 ha2 hcol a.2 ry ha3 ha4 hry0 hryh
    rw [Prod.mk.eta] at hv
    exact ⟨a.1, ha1, ha2, hcol, hv⟩

/-- For `w, h ≥ 2` the grid with one cell `z` removed is connected: any two
remaining cells are joined by a walk avoiding `z`. -/
theorem avoid_connect {w h : ℕ} (hw : 2 ≤ w) (hh : 2 ≤ h) {z a b : Cell}
    (ha : InGrid w h a) (hb : InGrid w h b) (haz : a ≠ z) (hbz : b ≠ z) :
    Relation.ReflTransGen (AvoidStep w h z) a b := by
  set ry : ℤ := if z.2 = 0 then 1 else 0 with hry
  have hry0 : 0 ≤ ry := by rw [hry]; split <;> omega
  have hryh : ry < (h : ℤ) := by rw [hry]; split <;> (push_cast; omega)
  have hryz : ry ≠ z.2 := by rw [hry]; split <;> omega
  obtain ⟨xa, hxa0, hxaw, hxaz, hpa⟩ := avoid_to_row hw hry0 hryh hryz ha haz
  obtain ⟨xb, hxb0, hxbw, hxbz, hpb⟩ := avoid_to_row hw hry0 hryh hryz hb hbz
  have hhor := avoid_horiz hry0 hryh hryz xa xb hxa0 hxaw hxb0 hxbw
  exact (hpa.trans hhor).trans (Relation.ReflTransGen.symmetric avoidStep_symm hpb)

/-- One step of the closure relation the final visited set is closed
under: a neighbor move into the grid from a cell the loop was allowed to
expand (every cell except a distinct `end`). -/
def SafeStep (w h : ℕ) (start endp : Cell) (a b : Cell) : Prop :=
  InGrid w h b ∧ b ∈ nbrs a ∧ (a = endp → a = start)

theorem safe_of_avoid {w h : ℕ} {start endp z : Cell}
    (hz : ∀ a : Cell, a ≠ z → (a = endp → a = start)) {a b : Cell}
    (hpath : Relation.ReflTransGen (AvoidStep w h z) a b) :
    Relation.ReflTransGen (SafeStep w h start endp) a b :=
  Relation.ReflTransGen.mono
    (fun u v huv => ⟨huv.2.1, huv.2.2.1, hz u huv.2.2.2.1⟩) hpath

/-- From `start`, every grid cell is reachable by neighbor moves whose
sources are all expandable: distinct from `end` unless `end = start`, with
only the final cell allowed to be `end`. -/
theorem safe_reach {w h : ℕ} (hw : 2 ≤ w) (hh : 2 ≤ h) {start endp t : Cell}
    (hst : InGrid w h start) (hen : InGrid w h endp) (ht : InGrid w h t) :
    Relation.ReflTransGen (SafeStep w h start endp) start t := by
  by_cases hse : start = endp
  · refine safe_of_avoid (z := ((-1 : ℤ), (-1 : ℤ))) ?_ (avoid_connect hw hh hst ht ?_ ?_)
    · intro a _ hae
      rw [hae]
      exact hse.symm
    · exact fun hc => absurd (hc ▸ hst.1) (by decide)
    · exact fun hc => absurd (hc ▸ ht.1) (by decide)
  · by_cases htz : t = endp
    · obtain ⟨ex, ey⟩ := endp
      set n : Cell := if ey = 0 then (ex, ey + 1) else (ex, ey - 1) with hndef
      obtain ⟨he1, he2, he3, he4⟩ := hen
      have hnin : InGrid w h n := by
        rw [hndef]
        split <;> exact ⟨he1, he2, by omega, by omega⟩
      have hnz : n ≠ ((ex, ey) : Cell) := by
        rw [hndef]
        split <;>
          (intro hc; rw [Prod.mk.injEq] at hc; omega)
      have hmem : ((ex, ey) : Cell) ∈ nbrs n := by
        rw [hndef]
        by_cases h0 : ey = 0
        · rw [if_pos h0, show ((ex, ey) : Cell) = ((ex, (ey + 1) - 1) : Cell) from by
            rw [Prod.mk.injEq]; omega]
          exact nbrs_above ex (ey + 1)
        · rw [if_neg h0, show ((ex, ey) : Cell) = ((ex, (ey - 1) + 1) : Cell) from by
            rw [Prod.mk.injEq]; omega]
          exact nbrs_below ex (ey - 1)
      have hstep : SafeStep w h start ((ex, ey) : Cell) n ((ex, ey) : Cell) :=
        ⟨⟨he1, he2, he3, he4⟩, hmem, fun hc => absurd hc hnz⟩
      have hpath : Relation.ReflTransGen (SafeStep w h start ((ex, ey) : Cell)) start n :=
        safe_of_avoid (z := ((ex, ey) : Cell)) (fun a hane hae => absurd hae hane)
          (avoid_connect hw hh hst hnin hse hnz)
      rw [htz]
      exact hpath.tail hstep
    · exact safe_of_avoid (z := endp) (fun a hane hae => absurd hae hane)
        (avoid_connect hw hh hst ht hse htz)

/-- Once the stack is empty, the visited set contains the target of every
walk from `start` whose intermediate cells were all expandable. -/
theorem final_visited {w h : ℕ} {start endp : Cell} {st : DfsState}
    (hinv : Inv w h start endp st) (hstk : st.stack = [])
    {t : Cell} (hpath : Relation.ReflTransGen (SafeStep w h start endp) start t) :
    t ∈ visSetM w h st.visited := by
  obtain ⟨-, -, -, -, hstart, hclosure, -⟩ := hinv
  induction hpath with
  | refl => exact hstart
  | tail hab hstep ih =>
    obtain ⟨hgb, hnb, hexp⟩ := hstep
    rcases hclosure _ ih hexp _ hnb hgb with hv | hv
    · exact hv
    · rw [hstk] at hv
      exact absurd hv (List.not_mem_nil _)

theorem carve_phase_stack_nil (w h : ℕ) (start endp : Cell) (r : List ℕ) :
    (carve_phase w h start endp r).stack = [] := by
  unfold carve_phase dfs
  exact iterate_stack_empty endp _ _ le_rfl

/-- At the end of the carving phase every grid cell has been visited. -/
theorem final_visSet_eq {w h : ℕ} (hw : 2 ≤ w) (hh : 2 ≤ h) {start endp : Cell}
    (hst : InGrid w h start) (hen : InGrid w h endp) (r : List ℕ) :
    visSetM w h (carve_phase w h start endp r).visited = gridF w h := by
  have hinv := carve_phase_inv hw hh hst endp r
  apply Finset.Subset.antisymm
  · intro p hp
    rw [mem_visSetM] at hp
    exact mem_gridF.mpr hp.1
  · intro t ht
    exact final_visited hinv (carve_phase_stack_nil w h start endp r)
      (safe_reach hw hh hst hen (mem_gridF.mp ht))

/-- The undirected graph of a set of carved adjacencies on the cells. -/
def mazeGraph (E : Finset (Cell × Cell)) : SimpleGraph Cell where
  Adj a b := AdjOf E a b ∧ a ≠ b
  symm := by
    rintro a b ⟨hadj, hne⟩
    exact ⟨adjOf_symm hadj, hne.symm⟩
  loopless := by
    rintro a ⟨-, hne⟩
    exact hne rfl

/-- If every edge of `E` is a bridge for the symmetric reachability read
off `E`, the graph of `E` is acyclic. -/
theorem mazeGraph_isAcyclic {E : Finset (Cell × Cell)}
    (hb : ∀ e ∈ E, ¬ Relation.ReflTransGen (AdjOfExcept E e) e.1 e.2) :
    (mazeGraph E).IsAcyclic := by
  rw [SimpleGraph.isAcyclic_iff_forall_adj_isBridge]
  intro v u hvu
  rw [SimpleGraph.isBridge_iff]
  refine ⟨hvu, ?_⟩
  intro hreach
  rw [SimpleGraph.reachable_iff_reflTransGen] at hreach
  have hmono : ∀ x y : Cell,
      ((mazeGraph E) \ SimpleGraph.fromEdgeSet {s(v, u)}).Adj x y →
      AdjOfExcept E (v, u) x y ∧ AdjOfExcept E (u, v) x y := by
    intro x y hxy
    rw [SimpleGraph.sdiff_adj, SimpleGraph.fromEdgeSet_adj] at hxy
    obtain ⟨⟨hadj, hxyne⟩, hnot⟩ := hxy
    have hsym : ¬ (s(x, y) : Sym2 Cell) = s(v, u) := by
      intro hc
      exact hnot ⟨by rw [hc]; exact Set.mem_singleton _, hxyne⟩
    rw [Sym2.eq_iff] at hsym
    refine ⟨⟨hadj, ?_⟩, ⟨hadj, ?_⟩⟩
    · rintro (hc | hc) <;> rw [Prod.mk.injEq] at hc
      · exact hsym (Or.inl ⟨hc.1, hc.2⟩)
      · exact hsym (Or.inr ⟨hc.2, hc.1⟩)
    · rintro (hc | hc) <;> rw [Prod.mk.injEq] at hc
      · exact hsym (Or.inr ⟨hc.1, hc.2⟩)
      · exact hsym (Or.inl ⟨hc.2, hc.1⟩)
  rcases hvu.1 with he | he
  · exact hb (v, u) he
      (Relation.ReflTransGen.mono (fun x y hxy => (hmono x y hxy).1) hreach)
  · have hsymm : Symmetric (AdjOfExcept E (u, v)) := by
      rintro a b ⟨hadj, hexc⟩
      exact ⟨adjOf_symm hadj, fun hc => hexc (Or.symm hc)⟩
    exact hb (u, v) he (Relation.ReflTransGen.symmetric hsymm
      (Relation.ReflTransGen.mono (fun x y hxy => (hmono x y hxy).2) hreach))

/-- The open adjacencies of the grid after the carving phase. -/
def carvedEdges (w h : ℕ) (start endp : Cell) (r : List ℕ) : Finset (Cell × Cell) :=
  openEdgesM w h (carve_phase w h start endp r).vertical
    (carve_phase w h start endp r).horizontal

set_option maxHeartbeats 1000000 in
/-- C1: for every grid size `w, h ≥ 2`, in-grid start and end and every
random outcome, the adjacencies carved by `dfs` on a freshly generated
grid form a spanning tree of the `w × h` cells: exactly `w * h - 1` wall
segments are open, every cell reaches every other through them, and their
graph has no cycles. -/
theorem dfs_spanning_tree {w h : ℕ} (hw : 2 ≤ w) (hh : 2 ≤ h) {start endp : Cell}
    (hst : InGrid w h start) (hen : InGrid w h endp) (r : List ℕ) :
    (carvedEdges w h start endp r).card = w * h - 1 ∧
    (∀ p q : Cell, InGrid w h p → InGrid w h q →
      Relation.ReflTransGen (AdjOf (carvedEdges w h start endp r)) p q) ∧
    (mazeGraph (carvedEdges w h start endp r)).IsAcyclic := by
  have hinv := carve_phase_inv hw hh hst endp r
  have hvis := final_visSet_eq hw hh hst hen r
  obtain ⟨-, -, -, -, -, -, -, hcard, hreach, hbridge⟩ := hinv
  unfold carvedEdges
  refine ⟨?_, ?_, ?_⟩
  · rw [hvis, gridF_card] at hcard
    omega
  · intro p q hp hq
    have hps := hreach p (by rw [hvis]; exact mem_gridF.mpr hp)
    have hqs := hreach q (by rw [hvis]; exact mem_gridF.mpr hq)
    have hsymm : Symmetric (AdjOf (openEdgesM w h
        (carve_phase w h start endp r).vertical
        (carve_phase w h start endp r).horizontal)) :=
      fun a b hab => adjOf_symm hab
    exact (Relation.ReflTransGen.symmetric hsymm hps).trans hqs
  · exact mazeGraph_isAcyclic hbridge

/-- Witness for C1 at `w = h = 2`, `start = (0,0)`, `end = (1,1)`. -/
theorem dfs_spanning_tree_witness :
    (2 ≤ 2 ∧ 2 ≤ 2 ∧ InGrid 2 2 ((0 : ℤ), (0 : ℤ)) ∧ InGrid 2 2 ((1 : ℤ), (1 : ℤ))) ∧
    ((carvedEdges 2 2 ((0 : ℤ), (0 : ℤ)) ((1 : ℤ), (1 : ℤ)) []).card = 2 * 2 - 1 ∧
     (∀ p q : Cell, InGrid 2 2 p → InGrid 2 2 q →
       Relation.ReflTransGen
         (AdjOf (carvedEdges 2 2 ((0 : ℤ), (0 : ℤ)) ((1 : ℤ), (1 : ℤ)) [])) p q) ∧
     (mazeGraph (carvedEdges 2 2 ((0 : ℤ), (0 : ℤ)) ((1 : ℤ), (1 : ℤ)) [])).IsAcyclic) :=
  ⟨by decide,
    @dfs_spanning_tree 2 2 (by decide) (by decide) ((0 : ℤ), (0 : ℤ)) ((1 : ℤ), (1 : ℤ))
      (by decide) (by decide) []⟩

end PyMaze
